import Mathlib

/-!
Verification of the `ins` repeat-annotation pipeline core.

This file gives a shallow embedding, in Lean 4, of the record/key codec,
the two key comparators, the region merger, the coordinate remapper, the
reciprocal-pass strand filter, the containment culler and the tabular
BLAST parser of the `ins` repository, together with proofs and refutations
of the stated correctness properties.

Modelling conventions:
* Go byte strings (`[]byte`, `string`) are `List Nat` whose elements are
  byte values; Go's `string` comparison is byte-lexicographic and is
  modelled by `strLt`.
* Go `int`/`int64` are `Int` with explicit two's-complement encoding
  (`toU64`/`ofI64`) where the code converts through `uint64`.
* `float64` fields are carried as their IEEE-754 bit patterns (`Nat`);
  the code only ever obtains them via `math.Float64bits`, compares them
  with `<`/`>`/`==`, or parses them from text.  Float comparison on bit
  patterns is modelled by `fLt`/`fGt`/`fEq` below, which agree with
  IEEE-754 comparison (NaN incomparable, -0.0 == +0.0).
-/

namespace Ins

/-- Two's-complement `uint64` view of a Go `int`/`int64` value, as used by
`order.PutUint64(b, uint64(v))`. -/
def toU64 (i : Int) : Nat := (i % 18446744073709551616).toNat

/-- Go `byte(v)` for an `int8` value `v`. -/
def toU8 (i : Int) : Nat := (i % 256).toNat

/-- Signed reinterpretation `int64(u)` of a `uint64` value. -/
def ofI64 (n : Nat) : Int :=
  if n < 9223372036854775808 then (n : Int) else (n : Int) - 18446744073709551616

/-- Signed reinterpretation `int8(b)` of a byte. -/
def ofI8 (n : Nat) : Int :=
  if n < 128 then (n : Int) else (n : Int) - 256

/-- Big-endian 8-byte encoding of `n mod 2^64`, as produced by
`binary.BigEndian.PutUint64`. -/
def u64be (n : Nat) : List Nat :=
  [n % 18446744073709551616 / 72057594037927936,
   n / 281474976710656 % 256,
   n / 1099511627776 % 256,
   n / 4294967296 % 256,
   n / 16777216 % 256,
   n / 65536 % 256,
   n / 256 % 256,
   n % 256]

/-- Big-endian recombination of 8 bytes, as computed by
`binary.BigEndian.Uint64`. -/
def beU64 (b0 b1 b2 b3 b4 b5 b6 b7 : Nat) : Nat :=
  ((((((b0 * 256 + b1) * 256 + b2) * 256 + b3) * 256 + b4) * 256 + b5) * 256 + b6) * 256 + b7

/-- Read 8 bytes as a big-endian `uint64`; `none` models the Go slice-bounds
panic on short input. -/
def readU64 : List Nat → Option (Nat × List Nat)
  | b0 :: b1 :: b2 :: b3 :: b4 :: b5 :: b6 :: b7 :: rest =>
      some (beU64 b0 b1 b2 b3 b4 b5 b6 b7, rest)
  | _ => none

/-- Take `n` leading bytes (`data[:n]`/`data[n:]`); `none` models the Go
slice-bounds panic on short input. -/
def readBytes (n : Nat) (data : List Nat) : Option (List Nat × List Nat) :=
  if n ≤ data.length then some (data.take n, data.drop n) else none

/-- `blast.Record` from `src/blast/blast.go`.  The three `float64` fields
(`PctIdentity`, `EValue`, `BitScore`) are carried as opaque numeric codes;
for `bitScore` the code is the IEEE-754 bit pattern, which is exactly what
`MarshalBlastRecordKey` writes via `math.Float64bits`. -/
structure Record where
  queryAccVer : List Nat
  subjectAccVer : List Nat
  pctIdentity : Nat
  alignmentLength : Int
  mismatches : Int
  gapOpens : Int
  queryStart : Int
  queryEnd : Int
  subjectStart : Int
  subjectEnd : Int
  eValue : Nat
  bitScore : Nat
  strand : Int
  iteration : Int
  uid : Int
  deriving Repr, DecidableEq

/-- `store.BlastRecordKey` from `src/internal/store/store.go`. -/
structure BlastRecordKey where
  subjectAccVer : List Nat
  subjectLeft : Int
  subjectRight : Int
  queryAccVer : List Nat
  queryStart : Int
  queryEnd : Int
  bitScore : Nat
  strand : Int
  deriving Repr, DecidableEq

/-- `store.MarshalBlastRecordKey` from `src/internal/store/store.go`:
length-prefixed subject accession, canonicalised subject coordinates
(swapping the query coordinates whenever the subject pair is swapped),
length-prefixed query accession, query coordinates, bitscore bits, and the
strand byte. -/
def MarshalBlastRecordKey (r : Record) : List Nat :=
  let left := r.subjectStart
  let right := r.subjectEnd
  let p :=
    if right < left then (right, left, r.queryEnd, r.queryStart)
    else (left, right, r.queryStart, r.queryEnd)
  u64be r.subjectAccVer.length ++ r.subjectAccVer ++
  u64be (toU64 p.1) ++ u64be (toU64 p.2.1) ++
  u64be r.queryAccVer.length ++ r.queryAccVer ++
  u64be (toU64 p.2.2.1) ++ u64be (toU64 p.2.2.2) ++
  u64be r.bitScore ++
  [toU8 r.strand]

/-- `store.UnmarshalBlastRecordKey` from `src/internal/store/store.go`;
`none` models the Go panic on malformed (short) input. -/
def UnmarshalBlastRecordKey (data : List Nat) : Option BlastRecordKey := do
  let (n1, d) ← readU64 data
  let (sacc, d) ← readBytes n1 d
  let (sl, d) ← readU64 d
  let (sr, d) ← readU64 d
  let (n2, d) ← readU64 d
  let (qacc, d) ← readBytes n2 d
  let (qs, d) ← readU64 d
  let (qe, d) ← readU64 d
  let (bs, d) ← readU64 d
  match d with
  | s :: _ =>
      some ⟨sacc, ofI64 sl, ofI64 sr, qacc, ofI64 qs, ofI64 qe, bs, ofI8 s⟩
  | [] => none

/-- Field bounds under which the Go record is representable: coordinates in
`int64`, strand in `int8`, bitscore bits in `uint64`, accessions of
`uint64`-bounded length. -/
def recordBounds (r : Record) : Prop :=
  -9223372036854775808 ≤ r.subjectStart ∧ r.subjectStart < 9223372036854775808 ∧
  -9223372036854775808 ≤ r.subjectEnd ∧ r.subjectEnd < 9223372036854775808 ∧
  -9223372036854775808 ≤ r.queryStart ∧ r.queryStart < 9223372036854775808 ∧
  -9223372036854775808 ≤ r.queryEnd ∧ r.queryEnd < 9223372036854775808 ∧
  -128 ≤ r.strand ∧ r.strand < 128 ∧
  r.bitScore < 18446744073709551616 ∧
  r.subjectAccVer.length < 18446744073709551616 ∧
  r.queryAccVer.length < 18446744073709551616

instance (r : Record) : Decidable (recordBounds r) := by
  unfold recordBounds; infer_instance

theorem readU64_u64be (n : Nat) (rest : List Nat) :
    readU64 (u64be n ++ rest) = some (n % 18446744073709551616, rest) := by
  simp only [u64be, readU64, List.cons_append, List.nil_append, beU64,
    Option.some.injEq, Prod.mk.injEq, and_true]
  omega

theorem readBytes_append (s rest : List Nat) :
    readBytes s.length (s ++ rest) = some (s, rest) := by
  simp [readBytes, List.take_left, List.drop_left]

theorem toU64_lt (i : Int) : toU64 i < 18446744073709551616 := by
  unfold toU64; omega

theorem ofI64_toU64 (i : Int) (h1 : -9223372036854775808 ≤ i)
    (h2 : i < 9223372036854775808) : ofI64 (toU64 i) = i := by
  unfold ofI64 toU64
  split <;> omega

theorem ofI8_toU8 (i : Int) (h1 : -128 ≤ i) (h2 : i < 128) :
    ofI8 (toU8 i) = i := by
  unfold ofI8 toU8
  split <;> omega

/-- The key struct that `MarshalBlastRecordKey` encodes: the record's key
fields after the canonicalising swap. -/
def canonKey (r : Record) : BlastRecordKey :=
  if r.subjectEnd < r.subjectStart then
    ⟨r.subjectAccVer, r.subjectEnd, r.subjectStart, r.queryAccVer,
      r.queryEnd, r.queryStart, r.bitScore, r.strand⟩
  else
    ⟨r.subjectAccVer, r.subjectStart, r.subjectEnd, r.queryAccVer,
      r.queryStart, r.queryEnd, r.bitScore, r.strand⟩

/-- Byte encoding of a key struct. -/
def keyBytes (k : BlastRecordKey) : List Nat :=
  u64be k.subjectAccVer.length ++ k.subjectAccVer ++
  u64be (toU64 k.subjectLeft) ++ u64be (toU64 k.subjectRight) ++
  u64be k.queryAccVer.length ++ k.queryAccVer ++
  u64be (toU64 k.queryStart) ++ u64be (toU64 k.queryEnd) ++
  u64be k.bitScore ++
  [toU8 k.strand]

theorem marshal_eq_keyBytes (r : Record) :
    MarshalBlastRecordKey r = keyBytes (canonKey r) := by
  unfold MarshalBlastRecordKey canonKey keyBytes
  by_cases h : r.subjectEnd < r.subjectStart <;> simp [h]

/-- Bounds tailored to key structs. -/
def keyBounds (k : BlastRecordKey) : Prop :=
  -9223372036854775808 ≤ k.subjectLeft ∧ k.subjectLeft < 9223372036854775808 ∧
  -9223372036854775808 ≤ k.subjectRight ∧ k.subjectRight < 9223372036854775808 ∧
  -9223372036854775808 ≤ k.queryStart ∧ k.queryStart < 9223372036854775808 ∧
  -9223372036854775808 ≤ k.queryEnd ∧ k.queryEnd < 9223372036854775808 ∧
  -128 ≤ k.strand ∧ k.strand < 128 ∧
  k.bitScore < 18446744073709551616 ∧
  k.subjectAccVer.length < 18446744073709551616 ∧
  k.queryAccVer.length < 18446744073709551616

theorem canonKey_bounds (r : Record) (h : recordBounds r) :
    keyBounds (canonKey r) := by
  obtain ⟨h1, h2, h3, h4, h5, h6, h7, h8, h9, h10, h11, h12, h13⟩ := h
  unfold canonKey keyBounds
  split <;> simp_all

theorem unmarshal_keyBytes (k : BlastRecordKey) (h : keyBounds k) :
    UnmarshalBlastRecordKey (keyBytes k) = some k := by
  obtain ⟨h1, h2, h3, h4, h5, h6, h7, h8, h9, h10, h11, h12, h13⟩ := h
  have tmod : ∀ i : Int, toU64 i % 18446744073709551616 = toU64 i :=
    fun i => Nat.mod_eq_of_lt (toU64_lt i)
  unfold keyBytes UnmarshalBlastRecordKey
  simp only [List.append_assoc, readU64_u64be, Option.bind_eq_bind,
    Option.some_bind, tmod, Nat.mod_eq_of_lt h11, Nat.mod_eq_of_lt h12,
    Nat.mod_eq_of_lt h13, readBytes_append, ofI64_toU64 _ h1 h2,
    ofI64_toU64 _ h3 h4, ofI64_toU64 _ h5 h6, ofI64_toU64 _ h7 h8,
    ofI8_toU8 _ h9 h10]

theorem unmarshal_marshal (r : Record) (h : recordBounds r) :
    UnmarshalBlastRecordKey (MarshalBlastRecordKey r) = some (canonKey r) := by
  rw [marshal_eq_keyBytes]
  exact unmarshal_keyBytes _ (canonKey_bounds r h)

/-- C1: for a record whose subject coordinates are already canonical
(`SubjectStart ≤ SubjectEnd`), unmarshalling the marshalled key recovers
every key field of the record: subject accession, subject left/right,
query accession, query start/end, bitscore and strand. -/
theorem c1_codec_roundtrip (r : Record) (hb : recordBounds r)
    (hc : r.subjectStart ≤ r.subjectEnd) :
    UnmarshalBlastRecordKey (MarshalBlastRecordKey r) =
      some ⟨r.subjectAccVer, r.subjectStart, r.subjectEnd, r.queryAccVer,
        r.queryStart, r.queryEnd, r.bitScore, r.strand⟩ := by
  rw [unmarshal_marshal r hb]
  unfold canonKey
  rw [if_neg (by omega)]

/-- Concrete witness for C1. -/
def wRecC1 : Record :=
  { queryAccVer := [113, 49], subjectAccVer := [99, 104, 114, 49],
    pctIdentity := 0, alignmentLength := 50, mismatches := 0, gapOpens := 0,
    queryStart := 3, queryEnd := 53, subjectStart := 1000, subjectEnd := 1050,
    eValue := 0, bitScore := 4632233691727265792, strand := 1,
    iteration := 0, uid := 0 }

theorem c1_codec_roundtrip_witness :
    UnmarshalBlastRecordKey (MarshalBlastRecordKey wRecC1) =
      some ⟨wRecC1.subjectAccVer, wRecC1.subjectStart, wRecC1.subjectEnd,
        wRecC1.queryAccVer, wRecC1.queryStart, wRecC1.queryEnd,
        wRecC1.bitScore, wRecC1.strand⟩ :=
  c1_codec_roundtrip wRecC1 (by decide) (by decide)

/-- The record with subject start/end and query start/end both swapped. -/
def swapRec (r : Record) : Record :=
  { r with subjectStart := r.subjectEnd, subjectEnd := r.subjectStart,
           queryStart := r.queryEnd, queryEnd := r.queryStart }

/-- C2: a minus-strand record (`SubjectStart > SubjectEnd`) marshals to
exactly the same bytes as its double-swapped canonical form. -/
theorem c2_canonicalization (r : Record) (h : r.subjectEnd < r.subjectStart) :
    MarshalBlastRecordKey r = MarshalBlastRecordKey (swapRec r) := by
  unfold MarshalBlastRecordKey swapRec
  simp only [if_pos h, if_neg (not_lt.mpr (le_of_lt h))]

/-- Concrete witness for C2. -/
def wRecC2 : Record :=
  { wRecC1 with subjectStart := 5000, subjectEnd := 4000 }

theorem c2_canonicalization_witness :
    MarshalBlastRecordKey wRecC2 = MarshalBlastRecordKey (swapRec wRecC2) :=
  c2_canonicalization wRecC2 (by decide)

/-- Go byte-lexicographic string order (`s < t` on `string`). -/
def strLt : List Nat → List Nat → Bool
  | [], [] => false
  | [], _ :: _ => true
  | _ :: _, [] => false
  | x :: xs, y :: ys => x < y || (x == y && strLt xs ys)

theorem strLt_conn :
    ∀ a b : List Nat, strLt a b = false → strLt b a = false → a = b := by
  intro a
  induction a with
  | nil => intro b h1 _; cases b with
    | nil => rfl
    | cons y ys => simp [strLt] at h1
  | cons x xs ih =>
    intro b h1 h2
    cases b with
    | nil => simp [strLt] at h2
    | cons y ys =>
      simp only [strLt, Bool.or_eq_false_iff, Bool.and_eq_false_iff,
        decide_eq_false_iff_not, beq_eq_false_iff_ne, ne_eq] at h1 h2
      have hxy : x = y := by omega
      subst hxy
      rcases h1.2 with h1' | h1'
      · omega
      · rcases h2.2 with h2' | h2'
        · omega
        · rw [ih ys h1' h2']

/-- NaN test on an IEEE-754 double bit pattern: exponent all ones,
non-zero mantissa. -/
def f64IsNaN (b : Nat) : Bool :=
  (b / 4503599627370496 % 2048 == 2047) && (b % 4503599627370496 != 0)

/-- Total-order rank of a non-NaN IEEE-754 double bit pattern; comparing
ranks coincides with Go `float64` comparison (and gives `-0.0 == +0.0`). -/
def f64Rank (b : Nat) : Int :=
  if b < 9223372036854775808 then (b : Int)
  else -((b : Int) - 9223372036854775808)

/-- Go `x < y` on `float64`, on bit patterns; false when either is NaN. -/
def fLt (x y : Nat) : Bool :=
  !f64IsNaN x && !f64IsNaN y && f64Rank x < f64Rank y

/-- Go `x > y` on `float64`, on bit patterns; false when either is NaN. -/
def fGt (x y : Nat) : Bool :=
  !f64IsNaN x && !f64IsNaN y && f64Rank y < f64Rank x

/-- Go `x == y` on `float64`, on bit patterns; false when either is NaN. -/
def fEq (x y : Nat) : Bool :=
  !f64IsNaN x && !f64IsNaN y && f64Rank x == f64Rank y

/-- The decision cascade of `store.GroupByQueryOrderSubjectLeft` on
unmarshalled keys: strand desc, query accession asc, subject accession asc,
subject left asc, subject right asc, bitscore desc, query start asc, query
end asc; `none` is the final `panic("unreachable")`. -/
def cmpGroupKeys (rx ry : BlastRecordKey) : Option Int :=
  if rx.strand > ry.strand then some (-1)
  else if rx.strand < ry.strand then some 1
  else if strLt rx.queryAccVer ry.queryAccVer then some (-1)
  else if strLt ry.queryAccVer rx.queryAccVer then some 1
  else if strLt rx.subjectAccVer ry.subjectAccVer then some (-1)
  else if strLt ry.subjectAccVer rx.subjectAccVer then some 1
  else if rx.subjectLeft < ry.subjectLeft then some (-1)
  else if rx.subjectLeft > ry.subjectLeft then some 1
  else if rx.subjectRight < ry.subjectRight then some (-1)
  else if rx.subjectRight > ry.subjectRight then some 1
  else if fGt rx.bitScore ry.bitScore then some (-1)
  else if fLt rx.bitScore ry.bitScore then some 1
  else if rx.queryStart < ry.queryStart then some (-1)
  else if rx.queryStart > ry.queryStart then some 1
  else if rx.queryEnd < ry.queryEnd then some (-1)
  else if rx.queryEnd > ry.queryEnd then some 1
  else none

/-- The decision cascade of `store.BySubjectPosition` on unmarshalled keys:
strand desc, subject accession asc, subject left asc, subject right desc
(longer first), bitscore desc, query accession asc, query start asc, query
end asc; `none` is the final `panic("unreachable")`. -/
def cmpSubjKeys (rx ry : BlastRecordKey) : Option Int :=
  if rx.strand > ry.strand then some (-1)
  else if rx.strand < ry.strand then some 1
  else if strLt rx.subjectAccVer ry.subjectAccVer then some (-1)
  else if strLt ry.subjectAccVer rx.subjectAccVer then some 1
  else if rx.subjectLeft < ry.subjectLeft then some (-1)
  else if rx.subjectLeft > ry.subjectLeft then some 1
  else if rx.subjectRight > ry.subjectRight then some (-1)
  else if rx.subjectRight < ry.subjectRight then some 1
  else if fGt rx.bitScore ry.bitScore then some (-1)
  else if fLt rx.bitScore ry.bitScore then some 1
  else if strLt rx.queryAccVer ry.queryAccVer then some (-1)
  else if strLt ry.queryAccVer rx.queryAccVer then some 1
  else if rx.queryStart < ry.queryStart then some (-1)
  else if rx.queryStart > ry.queryStart then some 1
  else if rx.queryEnd < ry.queryEnd then some (-1)
  else if rx.queryEnd > ry.queryEnd then some 1
  else none

/-- `store.GroupByQueryOrderSubjectLeft` from `src/internal/store/store.go`
on raw key bytes; `some 0` on byte equality, `none` models a panic. -/
def GroupByQueryOrderSubjectLeft (x y : List Nat) : Option Int :=
  if x = y then some 0
  else
    match UnmarshalBlastRecordKey x, UnmarshalBlastRecordKey y with
    | some rx, some ry => cmpGroupKeys rx ry
    | _, _ => none

/-- `store.BySubjectPosition` from `src/internal/store/store.go` on raw
key bytes; `some 0` on byte equality, `none` models a panic. -/
def BySubjectPosition (x y : List Nat) : Option Int :=
  if x = y then some 0
  else
    match UnmarshalBlastRecordKey x, UnmarshalBlastRecordKey y with
    | some rx, some ry => cmpSubjKeys rx ry
    | _, _ => none

/-- Record whose bitscore is `+0.0` (bit pattern 0). -/
def rPlusZero : Record :=
  { queryAccVer := [113], subjectAccVer := [115], pctIdentity := 0,
    alignmentLength := 0, mismatches := 0, gapOpens := 0,
    queryStart := 0, queryEnd := 7, subjectStart := 0, subjectEnd := 9,
    eValue := 0, bitScore := 0, strand := 1, iteration := 0, uid := 0 }

/-- The same record with bitscore `-0.0` (bit pattern `2^63`). -/
def rMinusZero : Record :=
  { rPlusZero with bitScore := 9223372036854775808 }

/-- C3 counterexample: the keys of two records that differ only in the
bitscore bit pattern (`+0.0` versus `-0.0`) are byte-distinct, yet both
comparators fall through their whole cascade and hit the
`panic("unreachable")` branch (modelled as `none`) instead of returning a
non-zero value. -/
theorem c3_comparator_panic_reachable :
    MarshalBlastRecordKey rPlusZero ≠ MarshalBlastRecordKey rMinusZero ∧
    GroupByQueryOrderSubjectLeft (MarshalBlastRecordKey rPlusZero)
      (MarshalBlastRecordKey rMinusZero) = none ∧
    BySubjectPosition (MarshalBlastRecordKey rPlusZero)
      (MarshalBlastRecordKey rMinusZero) = none := by
  refine ⟨by decide, ?_, ?_⟩ <;> decide

/-- Bit patterns that the float cascade can order: equal patterns, or
patterns strictly ordered as IEEE doubles.  This excludes exactly the
degenerate pairs (NaNs, `+0.0`/`-0.0`) of `c3_comparator_panic_reachable`. -/
def floatComparable (x y : Nat) : Prop :=
  x = y ∨ fLt x y = true ∨ fGt x y = true

theorem cmpGroupKeys_ne (a b : BlastRecordKey) (hne : a ≠ b)
    (hf : floatComparable a.bitScore b.bitScore) :
    ∃ c, cmpGroupKeys a b = some c ∧ c ≠ 0 := by
  unfold cmpGroupKeys
  by_cases h1 : a.strand > b.strand
  · rw [if_pos h1]; exact ⟨-1, rfl, by decide⟩
  rw [if_neg h1]
  by_cases h2 : a.strand < b.strand
  · rw [if_pos h2]; exact ⟨1, rfl, one_ne_zero⟩
  rw [if_neg h2]
  by_cases h3 : strLt a.queryAccVer b.queryAccVer = true
  · rw [if_pos h3]; exact ⟨-1, rfl, by decide⟩
  rw [if_neg h3]
  by_cases h4 : strLt b.queryAccVer a.queryAccVer = true
  · rw [if_pos h4]; exact ⟨1, rfl, one_ne_zero⟩
  rw [if_neg h4]
  by_cases h5 : strLt a.subjectAccVer b.subjectAccVer = true
  · rw [if_pos h5]; exact ⟨-1, rfl, by decide⟩
  rw [if_neg h5]
  by_cases h6 : strLt b.subjectAccVer a.subjectAccVer = true
  · rw [if_pos h6]; exact ⟨1, rfl, one_ne_zero⟩
  rw [if_neg h6]
  by_cases h7 : a.subjectLeft < b.subjectLeft
  · rw [if_pos h7]; exact ⟨-1, rfl, by decide⟩
  rw [if_neg h7]
  by_cases h8 : a.subjectLeft > b.subjectLeft
  · rw [if_pos h8]; exact ⟨1, rfl, one_ne_zero⟩
  rw [if_neg h8]
  by_cases h9 : a.subjectRight < b.subjectRight
  · rw [if_pos h9]; exact ⟨-1, rfl, by decide⟩
  rw [if_neg h9]
  by_cases h10 : a.subjectRight > b.subjectRight
  · rw [if_pos h10]; exact ⟨1, rfl, one_ne_zero⟩
  rw [if_neg h10]
  by_cases h11 : fGt a.bitScore b.bitScore = true
  · rw [if_pos h11]; exact ⟨-1, rfl, by decide⟩
  rw [if_neg h11]
  by_cases h12 : fLt a.bitScore b.bitScore = true
  · rw [if_pos h12]; exact ⟨1, rfl, one_ne_zero⟩
  rw [if_neg h12]
  by_cases h13 : a.queryStart < b.queryStart
  · rw [if_pos h13]; exact ⟨-1, rfl, by decide⟩
  rw [if_neg h13]
  by_cases h14 : a.queryStart > b.queryStart
  · rw [if_pos h14]; exact ⟨1, rfl, one_ne_zero⟩
  rw [if_neg h14]
  by_cases h15 : a.queryEnd < b.queryEnd
  · rw [if_pos h15]; exact ⟨-1, rfl, by decide⟩
  rw [if_neg h15]
  by_cases h16 : a.queryEnd > b.queryEnd
  · rw [if_pos h16]; exact ⟨1, rfl, one_ne_zero⟩
  rw [if_neg h16]
  exfalso
  apply hne
  have hq : a.queryAccVer = b.queryAccVer :=
    strLt_conn _ _ (by simpa using h3) (by simpa using h4)
  have hs : a.subjectAccVer = b.subjectAccVer :=
    strLt_conn _ _ (by simpa using h5) (by simpa using h6)
  have hbs : a.bitScore = b.bitScore := by
    rcases hf with h | h | h
    · exact h
    · exact absurd h (by simpa using h12)
    · exact absurd h (by simpa using h11)
  have hst : a.strand = b.strand := by omega
  have hl : a.subjectLeft = b.subjectLeft := by omega
  have hr : a.subjectRight = b.subjectRight := by omega
  have hqs : a.queryStart = b.queryStart := by omega
  have hqe : a.queryEnd = b.queryEnd := by omega
  cases a; cases b
  simp only [BlastRecordKey.mk.injEq]
  exact ⟨hs, hl, hr, hq, hqs, hqe, hbs, hst⟩

theorem cmpSubjKeys_ne (a b : BlastRecordKey) (hne : a ≠ b)
    (hf : floatComparable a.bitScore b.bitScore) :
    ∃ c, cmpSubjKeys a b = some c ∧ c ≠ 0 := by
  unfold cmpSubjKeys
  by_cases h1 : a.strand > b.strand
  · rw [if_pos h1]; exact ⟨-1, rfl, by decide⟩
  rw [if_neg h1]
  by_cases h2 : a.strand < b.strand
  · rw [if_pos h2]; exact ⟨1, rfl, one_ne_zero⟩
  rw [if_neg h2]
  by_cases h3 : strLt a.subjectAccVer b.subjectAccVer = true
  · rw [if_pos h3]; exact ⟨-1, rfl, by decide⟩
  rw [if_neg h3]
  by_cases h4 : strLt b.subjectAccVer a.subjectAccVer = true
  · rw [if_pos h4]; exact ⟨1, rfl, one_ne_zero⟩
  rw [if_neg h4]
  by_cases h5 : a.subjectLeft < b.subjectLeft
  · rw [if_pos h5]; exact ⟨-1, rfl, by decide⟩
  rw [if_neg h5]
  by_cases h6 : a.subjectLeft > b.subjectLeft
  · rw [if_pos h6]; exact ⟨1, rfl, one_ne_zero⟩
  rw [if_neg h6]
  by_cases h7 : a.subjectRight > b.subjectRight
  · rw [if_pos h7]; exact ⟨-1, rfl, by decide⟩
  rw [if_neg h7]
  by_cases h8 : a.subjectRight < b.subjectRight
  · rw [if_pos h8]; exact ⟨1, rfl, one_ne_zero⟩
  rw [if_neg h8]
  by_cases h9 : fGt a.bitScore b.bitScore = true
  · rw [if_pos h9]; exact ⟨-1, rfl, by decide⟩
  rw [if_neg h9]
  by_cases h10 : fLt a.bitScore b.bitScore = true
  · rw [if_pos h10]; exact ⟨1, rfl, one_ne_zero⟩
  rw [if_neg h10]
  by_cases h11 : strLt a.queryAccVer b.queryAccVer = true
  · rw [if_pos h11]; exact ⟨-1, rfl, by decide⟩
  rw [if_neg h11]
  by_cases h12 : strLt b.queryAccVer a.queryAccVer = true
  · rw [if_pos h12]; exact ⟨1, rfl, one_ne_zero⟩
  rw [if_neg h12]
  by_cases h13 : a.queryStart < b.queryStart
  · rw [if_pos h13]; exact ⟨-1, rfl, by decide⟩
  rw [if_neg h13]
  by_cases h14 : a.queryStart > b.queryStart
  · rw [if_pos h14]; exact ⟨1, rfl, one_ne_zero⟩
  rw [if_neg h14]
  by_cases h15 : a.queryEnd < b.queryEnd
  · rw [if_pos h15]; exact ⟨-1, rfl, by decide⟩
  rw [if_neg h15]
  by_cases h16 : a.queryEnd > b.queryEnd
  · rw [if_pos h16]; exact ⟨1, rfl, one_ne_zero⟩
  rw [if_neg h16]
  exfalso
  apply hne
  have hq : a.queryAccVer = b.queryAccVer :=
    strLt_conn _ _ (by simpa using h11) (by simpa using h12)
  have hs : a.subjectAccVer = b.subjectAccVer :=
    strLt_conn _ _ (by simpa using h3) (by simpa using h4)
  have hbs : a.bitScore = b.bitScore := by
    rcases hf with h | h | h
    · exact h
    · exact absurd h (by simpa using h10)
    · exact absurd h (by simpa using h9)
  have hst : a.strand = b.strand := by omega
  have hl : a.subjectLeft = b.subjectLeft := by omega
  have hr : a.subjectRight = b.subjectRight := by omega
  have hqs : a.queryStart = b.queryStart := by omega
  have hqe : a.queryEnd = b.queryEnd := by omega
  cases a; cases b
  simp only [BlastRecordKey.mk.injEq]
  exact ⟨hs, hl, hr, hq, hqs, hqe, hbs, hst⟩

/-- C3 (amended): byte-equal keys compare as 0 under both comparators, and
byte-distinct marshalled keys compare non-zero under both comparators
provided their bitscore fields are either bit-identical or strictly
ordered as IEEE doubles.  (Without that proviso the panic branch is
reachable: see `c3_comparator_panic_reachable`.) -/
theorem c3_comparators_total_amended (r1 r2 : Record)
    (hb1 : recordBounds r1) (hb2 : recordBounds r2)
    (hf : floatComparable r1.bitScore r2.bitScore) :
    (∀ x : List Nat, GroupByQueryOrderSubjectLeft x x = some 0 ∧
      BySubjectPosition x x = some 0) ∧
    (MarshalBlastRecordKey r1 ≠ MarshalBlastRecordKey r2 →
      (∃ c, GroupByQueryOrderSubjectLeft (MarshalBlastRecordKey r1)
          (MarshalBlastRecordKey r2) = some c ∧ c ≠ 0) ∧
      (∃ c, BySubjectPosition (MarshalBlastRecordKey r1)
          (MarshalBlastRecordKey r2) = some c ∧ c ≠ 0)) := by
  constructor
  · intro x
    constructor <;> simp [GroupByQueryOrderSubjectLeft, BySubjectPosition]
  · intro hne
    have hkey : canonKey r1 ≠ canonKey r2 := by
      intro h
      apply hne
      rw [marshal_eq_keyBytes, marshal_eq_keyBytes, h]
    have hf' : floatComparable (canonKey r1).bitScore (canonKey r2).bitScore := by
      have e1 : (canonKey r1).bitScore = r1.bitScore := by
        unfold canonKey; split <;> rfl
      have e2 : (canonKey r2).bitScore = r2.bitScore := by
        unfold canonKey; split <;> rfl
      rw [e1, e2]; exact hf
    constructor
    · obtain ⟨c, hc, hc0⟩ := cmpGroupKeys_ne _ _ hkey hf'
      refine ⟨c, ?_, hc0⟩
      unfold GroupByQueryOrderSubjectLeft
      rw [if_neg hne, unmarshal_marshal r1 hb1, unmarshal_marshal r2 hb2]
      exact hc
    · obtain ⟨c, hc, hc0⟩ := cmpSubjKeys_ne _ _ hkey hf'
      refine ⟨c, ?_, hc0⟩
      unfold BySubjectPosition
      rw [if_neg hne, unmarshal_marshal r1 hb1, unmarshal_marshal r2 hb2]
      exact hc

/-- A second concrete record for the C3 witness, differing in query start. -/
def wRecC3 : Record :=
  { wRecC1 with queryStart := 4 }

theorem c3_comparators_total_amended_witness :
    (∀ x : List Nat, GroupByQueryOrderSubjectLeft x x = some 0 ∧
      BySubjectPosition x x = some 0) ∧
    ((∃ c, GroupByQueryOrderSubjectLeft (MarshalBlastRecordKey wRecC1)
        (MarshalBlastRecordKey wRecC3) = some c ∧ c ≠ 0) ∧
     (∃ c, BySubjectPosition (MarshalBlastRecordKey wRecC1)
        (MarshalBlastRecordKey wRecC3) = some c ∧ c ≠ 0)) := by
  have h := c3_comparators_total_amended wRecC1 wRecC3 (by decide) (by decide)
    (Or.inl rfl)
  exact ⟨h.1, h.2 (by decide)⟩

instance : Inhabited BlastRecordKey :=
  ⟨⟨[], 0, 0, [], 0, 0, 0, 0⟩⟩

/-- The mergeability test of `merge` (`src/cmd/ins/fragment.go` line 146):
the incoming record extends the running region when its subject left is
within `near` of the running subject right and strand, subject accession
and query accession agree. -/
def mergeable (near : Int) (r last : BlastRecordKey) : Prop :=
  r.subjectLeft - last.subjectRight ≤ near ∧ r.strand = last.strand ∧
  r.subjectAccVer = last.subjectAccVer ∧ r.queryAccVer = last.queryAccVer

instance (near : Int) (r last : BlastRecordKey) : Decidable (mergeable near r last) := by
  unfold mergeable; infer_instance

/-- `if r.SubjectRight > last.SubjectRight { last.SubjectRight = r.SubjectRight }`. -/
def extendRight (last r : BlastRecordKey) : BlastRecordKey :=
  if r.subjectRight > last.subjectRight then
    { last with subjectRight := r.subjectRight }
  else last

/-- `last.QueryStart, last.QueryEnd = 0, 0` applied to the first key. -/
def zeroQ (k : BlastRecordKey) : BlastRecordKey :=
  { k with queryStart := 0, queryEnd := 0 }

/-- The `blast.Record` that `merge` constructs for a region write: only
subject accession/coordinates, query accession and strand are set. -/
def regionRecord (last : BlastRecordKey) : Record :=
  { queryAccVer := last.queryAccVer, subjectAccVer := last.subjectAccVer,
    pctIdentity := 0, alignmentLength := 0, mismatches := 0, gapOpens := 0,
    queryStart := 0, queryEnd := 0, subjectStart := last.subjectLeft,
    subjectEnd := last.subjectRight, eValue := 0, bitScore := 0,
    strand := last.strand, iteration := 0, uid := 0 }

/-- The key struct stored for a region: the marshalled `regionRecord`,
viewed through the codec. -/
def regionKey (last : BlastRecordKey) : BlastRecordKey :=
  canonKey (regionRecord last)

/-- Result of `merge`: either a regions store (list of key/count entries in
insertion order, which for sorted input is the comparator order), or the
`(nil, nil)` return taken when the forward store is empty. -/
inductive MergeResult where
  | stores (regions : List (BlastRecordKey × Int))
  | nilStore
  deriving Repr, DecidableEq

/-- The main loop of `merge` (`src/cmd/ins/fragment.go` lines 115-176) over
the unmarshalled forward keys in store order: returns the regions emitted
at non-mergeable transitions together with the pending accumulated region
and its member count.  Transactions and logging carry no region content
and are not modelled. -/
def mergeLoop (near : Int) : BlastRecordKey → Int → List BlastRecordKey →
    List (BlastRecordKey × Int) × BlastRecordKey × Int
  | last, n, [] => ([], last, n)
  | last, n, r :: rest =>
      if mergeable near r last then mergeLoop near (extendRight last r) (n + 1) rest
      else
        let (out, l, m) := mergeLoop near r 1 rest
        ((regionKey last, n) :: out, l, m)

/-- `merge` from `src/cmd/ins/fragment.go` (lines 87-205).  An empty
forward store short-circuits to `return nil, nil` (`nilStore`); otherwise
the loop runs and the pending region is written unless its accumulated
struct equals the unmarshalled last written key (lines 177-202). -/
def merge (near : Int) (hits : List BlastRecordKey) : MergeResult :=
  match hits with
  | [] => MergeResult.nilStore
  | k :: rest =>
      let (out, l, n) := mergeLoop near (zeroQ k) 1 rest
      match out.getLast? with
      | none => MergeResult.stores (out ++ [(regionKey l, n)])
      | some fin =>
          if l = fin.1 then MergeResult.stores out
          else MergeResult.stores (out ++ [(regionKey l, n)])

/-- C5: on an empty forward store, `merge` does not fail with an
end-of-input error; it swallows `io.EOF` and returns `(nil, nil)` — a nil
regions store and a nil error — although its caller explicitly tests for
`io.EOF` from `merge` and would report "no repeat region found".  The
`MergeResult` type has no error outcome because the only fallible
operations are store reads, whose EOF is the case modelled here. -/
theorem c5_merge_empty_returns_nil : merge 30 [] = MergeResult.nilStore := rfl

/-- Instrumentation of `mergeLoop`: the partition of the input into runs of
records grouped into one region.  `cur` is the (non-empty) run being
accumulated. -/
def runsLoop (near : Int) : BlastRecordKey → List BlastRecordKey →
    List BlastRecordKey → List (List BlastRecordKey)
  | _, cur, [] => [cur]
  | last, cur, r :: rest =>
      if mergeable near r last then runsLoop near (extendRight last r) (cur ++ [r]) rest
      else cur :: runsLoop near r [r] rest

/-- The run partition computed by `merge` on a non-empty input. -/
def mergeRuns (near : Int) : List BlastRecordKey → List (List BlastRecordKey)
  | [] => []
  | k :: rest => runsLoop near (zeroQ k) [k] rest

/-- Running subject-right of a region accumulated over a run: the maximum
of the members' subject rights. -/
def maxRightOf : List BlastRecordKey → Int
  | [] => 0
  | m :: ms => ms.foldl (fun a r => max a r.subjectRight) m.subjectRight

/-- The region key emitted for a completed run. -/
def runKey (run : List BlastRecordKey) : BlastRecordKey :=
  match run with
  | [] => default
  | m :: _ => ⟨m.subjectAccVer, m.subjectLeft, maxRightOf run,
      m.queryAccVer, 0, 0, 0, m.strand⟩

/-- Strand, query accession and subject accession agree — the grouping
fields of the group-by-query order. -/
def sameGroup3 (a b : BlastRecordKey) : Prop :=
  a.strand = b.strand ∧ a.queryAccVer = b.queryAccVer ∧
  a.subjectAccVer = b.subjectAccVer

instance (a b : BlastRecordKey) : Decidable (sameGroup3 a b) := by
  unfold sameGroup3; infer_instance

theorem strLt_irrefl (a : List Nat) : strLt a a = false := by
  induction a with
  | nil => rfl
  | cons x xs ih => simp [strLt, ih]

theorem strLt_trans : ∀ (a b c : List Nat),
    strLt a b = true → strLt b c = true → strLt a c = true := by
  intro a
  induction a with
  | nil =>
    intro b c hab hbc
    cases b with
    | nil => exact absurd hab (by simp [strLt])
    | cons y ys =>
      cases c with
      | nil => exact absurd hbc (by simp [strLt])
      | cons z zs => simp [strLt]
  | cons x xs ih =>
    intro b c hab hbc
    cases b with
    | nil => exact absurd hab (by simp [strLt])
    | cons y ys =>
      cases c with
      | nil => exact absurd hbc (by simp [strLt])
      | cons z zs =>
        simp only [strLt, Bool.or_eq_true, Bool.and_eq_true,
          decide_eq_true_eq, beq_iff_eq] at hab hbc ⊢
        rcases hab with hab | ⟨hab, hab'⟩
        · rcases hbc with hbc | ⟨hbc, _⟩
          · exact Or.inl (by omega)
          · exact Or.inl (by omega)
        · rcases hbc with hbc | ⟨hbc, hbc'⟩
          · exact Or.inl (by omega)
          · exact Or.inr ⟨by omega, ih ys zs hab' hbc'⟩

/-- `a`'s grouping fields do not come after `b`'s in the group-by-query
order: strand descending, then query accession, then subject accession. -/
def gLe (a b : BlastRecordKey) : Prop :=
  b.strand < a.strand ∨ (a.strand = b.strand ∧
    (strLt a.queryAccVer b.queryAccVer = true ∨ (a.queryAccVer = b.queryAccVer ∧
      (strLt a.subjectAccVer b.subjectAccVer = true ∨
        a.subjectAccVer = b.subjectAccVer))))

theorem cmpLt_gLe (a b : BlastRecordKey)
    (h : cmpGroupKeys a b = some (-1)) : gLe a b := by
  unfold cmpGroupKeys at h
  unfold gLe
  by_cases h1 : a.strand > b.strand
  · exact Or.inl h1
  rw [if_neg h1] at h
  by_cases h2 : a.strand < b.strand
  · rw [if_pos h2] at h; exact absurd h (by simp)
  rw [if_neg h2] at h
  have hst : a.strand = b.strand := by omega
  by_cases h3 : strLt a.queryAccVer b.queryAccVer = true
  · exact Or.inr ⟨hst, Or.inl h3⟩
  rw [if_neg h3] at h
  by_cases h4 : strLt b.queryAccVer a.queryAccVer = true
  · rw [if_pos h4] at h; exact absurd h (by simp)
  rw [if_neg h4] at h
  have hq : a.queryAccVer = b.queryAccVer :=
    strLt_conn _ _ (by simpa using h3) (by simpa using h4)
  by_cases h5 : strLt a.subjectAccVer b.subjectAccVer = true
  · exact Or.inr ⟨hst, Or.inr ⟨hq, Or.inl h5⟩⟩
  rw [if_neg h5] at h
  by_cases h6 : strLt b.subjectAccVer a.subjectAccVer = true
  · rw [if_pos h6] at h; exact absurd h (by simp)
  have hs : a.subjectAccVer = b.subjectAccVer :=
    strLt_conn _ _ (by simpa using h5) (by simpa using h6)
  exact Or.inr ⟨hst, Or.inr ⟨hq, Or.inr hs⟩⟩

theorem cmpLt_left_le (a b : BlastRecordKey)
    (h : cmpGroupKeys a b = some (-1)) (hg : sameGroup3 a b) :
    a.subjectLeft ≤ b.subjectLeft := by
  obtain ⟨e1, e2, e3⟩ := hg
  by_cases h8 : a.subjectLeft > b.subjectLeft
  · exfalso
    unfold cmpGroupKeys at h
    rw [if_neg (by omega : ¬a.strand > b.strand),
      if_neg (by omega : ¬a.strand < b.strand),
      if_neg (by simp [e2, strLt_irrefl]),
      if_neg (by simp [e2, strLt_irrefl]),
      if_neg (by simp [e3, strLt_irrefl]),
      if_neg (by simp [e3, strLt_irrefl]),
      if_neg (by omega : ¬a.subjectLeft < b.subjectLeft),
      if_pos h8] at h
    exact absurd h (by simp)
  · omega

theorem gLe_squeeze (a b c : BlastRecordKey) (h1 : gLe a b) (h2 : gLe b c)
    (h3 : sameGroup3 a c) : sameGroup3 a b := by
  obtain ⟨e1, e2, e3⟩ := h3
  unfold gLe at h1 h2
  rcases h1 with h1 | ⟨f1, h1⟩
  · rcases h2 with h2 | ⟨f2, _⟩ <;> (exfalso; omega)
  rcases h2 with h2 | ⟨f2, h2⟩
  · exfalso; omega
  refine ⟨f1, ?_, ?_⟩
  · rcases h1 with h1 | ⟨g1, _⟩
    · exfalso
      rcases h2 with h2 | ⟨g2, _⟩
      · have := strLt_trans _ _ _ h1 h2
        rw [e2, strLt_irrefl] at this
        exact absurd this (by simp)
      · rw [g2, ← e2, strLt_irrefl] at h1
        exact absurd h1 (by simp)
    · exact g1
  · rcases h1 with h1 | ⟨g1, h1⟩
    · exfalso
      rcases h2 with h2 | ⟨g2, _⟩
      · have := strLt_trans _ _ _ h1 h2
        rw [e2, strLt_irrefl] at this
        exact absurd this (by simp)
      · rw [g2, ← e2, strLt_irrefl] at h1
        exact absurd h1 (by simp)
    · rcases h1 with h1 | g2
      · exfalso
        rcases h2 with h2 | ⟨g2', h2⟩
        · exfalso
          rw [← e2, ← g1, strLt_irrefl] at h2
          exact absurd h2 (by simp)
        · rcases h2 with h2 | g3
          · have := strLt_trans _ _ _ h1 h2
            rw [e3, strLt_irrefl] at this
            exact absurd this (by simp)
          · rw [g3, ← e3, strLt_irrefl] at h1
            exact absurd h1 (by simp)
      · exact g2

theorem headI_mem' (l : List BlastRecordKey) (h : l ≠ []) : l.headI ∈ l := by
  cases l with
  | nil => exact absurd rfl h
  | cons x xs => simp

theorem foldl_max_init_le (t : List BlastRecordKey) :
    ∀ a : Int, a ≤ t.foldl (fun x r => max x r.subjectRight) a := by
  induction t with
  | nil => intro a; exact le_refl a
  | cons r t ih =>
    intro a
    calc a ≤ max a r.subjectRight := le_max_left _ _
    _ ≤ _ := ih _

theorem mem_foldl_max_le (t : List BlastRecordKey) :
    ∀ (a : Int) (m : BlastRecordKey), m ∈ t →
      m.subjectRight ≤ t.foldl (fun x r => max x r.subjectRight) a := by
  induction t with
  | nil => intro a m hm; exact absurd hm (by simp)
  | cons r t ih =>
    intro a m hm
    rcases List.mem_cons.mp hm with rfl | hm
    · calc m.subjectRight ≤ max a m.subjectRight := le_max_right _ _
      _ ≤ _ := foldl_max_init_le t _
    · exact ih _ m hm

theorem le_maxRightOf (run : List BlastRecordKey) (m : BlastRecordKey)
    (hm : m ∈ run) : m.subjectRight ≤ maxRightOf run := by
  cases run with
  | nil => exact absurd hm (by simp)
  | cons h t =>
    rcases List.mem_cons.mp hm with rfl | hm
    · exact foldl_max_init_le t _
    · exact mem_foldl_max_le t _ m hm

theorem maxRightOf_append (cur : List BlastRecordKey) (r : BlastRecordKey)
    (h : cur ≠ []) :
    maxRightOf (cur ++ [r]) = max (maxRightOf cur) r.subjectRight := by
  cases cur with
  | nil => exact absurd rfl h
  | cons m ms => simp [maxRightOf, List.foldl_append]

theorem extendRight_right (last r : BlastRecordKey) :
    (extendRight last r).subjectRight = max last.subjectRight r.subjectRight := by
  unfold extendRight
  split <;> simp <;> omega

theorem extendRight_fields (last r : BlastRecordKey) :
    (extendRight last r).subjectAccVer = last.subjectAccVer ∧
    (extendRight last r).queryAccVer = last.queryAccVer ∧
    (extendRight last r).strand = last.strand ∧
    (extendRight last r).subjectLeft = last.subjectLeft := by
  unfold extendRight
  split <;> exact ⟨rfl, rfl, rfl, rfl⟩

theorem append_singleton_decomp (cur : List BlastRecordKey) (r : BlastRecordKey)
    (pre : List BlastRecordKey) (m : BlastRecordKey) (post : List BlastRecordKey)
    (h : cur ++ [r] = pre ++ m :: post) :
    (pre = cur ∧ m = r ∧ post = []) ∨
    (∃ post', post = post' ++ [r] ∧ cur = pre ++ m :: post') := by
  rcases post.eq_nil_or_concat with rfl | ⟨post', x, rfl⟩
  · left
    obtain ⟨h1, h2⟩ := List.append_inj' h (by rfl)
    obtain rfl : r = m := by simpa using h2
    exact ⟨h1.symm, rfl, rfl⟩
  · right
    rw [List.concat_eq_append] at h
    have h' : cur ++ [r] = (pre ++ m :: post') ++ [x] := by
      rw [h]; simp
    obtain ⟨h1, h2⟩ := List.append_inj' h' (by rfl)
    obtain rfl : r = x := by simpa using h2
    exact ⟨post', List.concat_eq_append post' r, h1⟩

/-- Invariant linking `merge`'s accumulated `last` to the run of records
it summarises: same grouping fields and subject left as the run head, and
subject right equal to the running maximum. -/
def accumOK (last : BlastRecordKey) (cur : List BlastRecordKey) : Prop :=
  match cur with
  | [] => False
  | h :: _ =>
      last.subjectAccVer = h.subjectAccVer ∧ last.queryAccVer = h.queryAccVer ∧
      last.strand = h.strand ∧ last.subjectLeft = h.subjectLeft ∧
      last.subjectRight = maxRightOf cur

/-- Two adjacent runs were separated by a failed mergeability test. -/
def runBoundary (near : Int) (a b : List BlastRecordKey) : Prop :=
  ¬ (sameGroup3 b.headI a.headI ∧ b.headI.subjectLeft - maxRightOf a ≤ near)

theorem accumOK_ne_nil {last : BlastRecordKey} {cur : List BlastRecordKey}
    (h : accumOK last cur) : cur ≠ [] := by
  cases cur with
  | nil => exact absurd h (by simp [accumOK])
  | cons a l => simp

theorem runsLoop_spec (near : Int) :
    ∀ (rest : List BlastRecordKey) (last : BlastRecordKey)
      (cur : List BlastRecordKey),
    accumOK last cur →
    (∀ m ∈ cur, sameGroup3 m cur.headI) →
    (∀ pre m post, cur = pre ++ m :: post → pre ≠ [] →
        sameGroup3 m cur.headI ∧ m.subjectLeft - maxRightOf pre ≤ near) →
    (runsLoop near last cur rest).flatten = cur ++ rest ∧
    (∃ ext rem, runsLoop near last cur rest = (cur ++ ext) :: rem) ∧
    (∀ run ∈ runsLoop near last cur rest, run ≠ []) ∧
    (∀ run ∈ runsLoop near last cur rest, ∀ m ∈ run, sameGroup3 m run.headI) ∧
    (∀ run ∈ runsLoop near last cur rest, ∀ pre m post, run = pre ++ m :: post →
        pre ≠ [] → sameGroup3 m run.headI ∧ m.subjectLeft - maxRightOf pre ≤ near) ∧
    List.Chain' (runBoundary near) (runsLoop near last cur rest) := by
  intro rest
  induction rest with
  | nil =>
    intro last cur hacc hgrp hwithin
    have hne := accumOK_ne_nil hacc
    refine ⟨by simp [runsLoop], ⟨[], [], by simp [runsLoop]⟩, ?_, ?_, ?_, ?_⟩
    · intro run hrun
      have hrc : run = cur := by simpa [runsLoop] using hrun
      rw [hrc]
      exact hne
    · intro run hrun
      have hrc : run = cur := by simpa [runsLoop] using hrun
      rw [hrc]
      exact hgrp
    · intro run hrun
      have hrc : run = cur := by simpa [runsLoop] using hrun
      rw [hrc]
      exact hwithin
    · simp [runsLoop]
  | cons r rest ih =>
    intro last cur hacc hgrp hwithin
    have hne := accumOK_ne_nil hacc
    obtain ⟨h0, hs0⟩ : ∃ h0 hs0, cur = h0 :: hs0 := by
      cases cur with
      | nil => exact absurd rfl hne
      | cons a l => exact ⟨a, l, rfl⟩
    obtain ⟨hs0, rfl⟩ := hs0
    obtain ⟨ha1, ha2, ha3, ha4, ha5⟩ : last.subjectAccVer = h0.subjectAccVer ∧
        last.queryAccVer = h0.queryAccVer ∧ last.strand = h0.strand ∧
        last.subjectLeft = h0.subjectLeft ∧
        last.subjectRight = maxRightOf (h0 :: hs0) := hacc
    by_cases hm : mergeable near r last
    · -- the record joins the running region
      have hrec : runsLoop near last (h0 :: hs0) (r :: rest) =
          runsLoop near (extendRight last r) ((h0 :: hs0) ++ [r]) rest := by
        simp only [runsLoop]
        rw [if_pos hm]
      obtain ⟨hm1, hm2, hm3, hm4⟩ := hm
      have hgrp_r : sameGroup3 r (h0 :: hs0).headI :=
        ⟨hm2.trans ha3, hm4.trans ha2, hm3.trans ha1⟩
      obtain ⟨e1, e2, e3, e4⟩ := extendRight_fields last r
      have hacc' : accumOK (extendRight last r) ((h0 :: hs0) ++ [r]) := by
        refine ⟨e1.trans ha1, e2.trans ha2, e3.trans ha3, e4.trans ha4, ?_⟩
        rw [extendRight_right, ha5,
          maxRightOf_append (h0 :: hs0) r (by simp)]
      have hgrp' : ∀ m ∈ (h0 :: hs0) ++ [r],
          sameGroup3 m ((h0 :: hs0) ++ [r]).headI := by
        intro m hmem
        rcases List.mem_append.mp hmem with hmem | hmem
        · exact hgrp m hmem
        · rw [List.mem_singleton.mp hmem]
          exact hgrp_r
      have hwithin' : ∀ pre m post, (h0 :: hs0) ++ [r] = pre ++ m :: post →
          pre ≠ [] → sameGroup3 m ((h0 :: hs0) ++ [r]).headI ∧
            m.subjectLeft - maxRightOf pre ≤ near := by
        intro pre m post heq hpre
        rcases append_singleton_decomp _ _ _ _ _ heq with ⟨rfl, rfl, rfl⟩ |
          ⟨post', rfl, hdec⟩
        · exact ⟨hgrp_r, by rw [← ha5]; exact hm1⟩
        · obtain ⟨hg, hb⟩ := hwithin pre m post' hdec hpre
          exact ⟨hg, hb⟩
      obtain ⟨ihj, ⟨ext', rem', ihshape⟩, ihne, ihgrp, ihwithin, ihchain⟩ :=
        ih (extendRight last r) ((h0 :: hs0) ++ [r]) hacc' hgrp' hwithin'
      rw [hrec]
      refine ⟨by rw [ihj]; simp, ⟨[r] ++ ext', rem', by rw [ihshape]; simp⟩,
        ihne, ihgrp, ihwithin, ihchain⟩
    · -- a region boundary: the record starts a new run
      have hrec : runsLoop near last (h0 :: hs0) (r :: rest) =
          (h0 :: hs0) :: runsLoop near r [r] rest := by
        simp only [runsLoop]
        rw [if_neg hm]
      have hacc' : accumOK r [r] := ⟨rfl, rfl, rfl, rfl, rfl⟩
      have hgrp' : ∀ m ∈ [r], sameGroup3 m ([r] : List BlastRecordKey).headI := by
        intro m hmem
        rw [List.mem_singleton.mp hmem]
        exact ⟨rfl, rfl, rfl⟩
      have hwithin' : ∀ pre m post, ([r] : List BlastRecordKey) = pre ++ m :: post →
          pre ≠ [] → sameGroup3 m ([r] : List BlastRecordKey).headI ∧
            m.subjectLeft - maxRightOf pre ≤ near := by
        intro pre m post heq hpre
        exfalso
        have hlen := congrArg List.length heq
        cases pre with
        | nil => exact hpre rfl
        | cons p ps => simp at hlen
      obtain ⟨ihj, ⟨ext', rem', ihshape⟩, ihne, ihgrp, ihwithin, ihchain⟩ :=
        ih r [r] hacc' hgrp' hwithin'
      rw [hrec]
      refine ⟨by simp [ihj], ⟨[], runsLoop near r [r] rest, by simp⟩, ?_, ?_, ?_, ?_⟩
      · intro run hrun
        rcases List.mem_cons.mp hrun with rfl | hrun
        · exact hne
        · exact ihne run hrun
      · intro run hrun
        rcases List.mem_cons.mp hrun with rfl | hrun
        · exact hgrp
        · exact ihgrp run hrun
      · intro run hrun
        rcases List.mem_cons.mp hrun with rfl | hrun
        · exact hwithin
        · exact ihwithin run hrun
      · rw [List.chain'_cons']
        refine ⟨?_, ihchain⟩
        intro y hy
        rw [ihshape] at hy
        simp only [List.head?_cons, Option.mem_def, Option.some.injEq] at hy
        subst hy
        intro ⟨hgy, hby⟩
        apply hm
        have hhead : (([r] ++ ext') : List BlastRecordKey).headI = r := by simp
        rw [hhead] at hgy hby
        obtain ⟨g1, g2, g3⟩ := hgy
        exact ⟨by rw [← ha5] at hby; exact hby, g1.trans ha3.symm,
          g3.trans ha1.symm, g2.trans ha2.symm⟩

theorem regionKey_eq_runKey (last : BlastRecordKey) (cur : List BlastRecordKey)
    (hacc : accumOK last cur)
    (hcanon : ∀ m ∈ cur, m.subjectLeft ≤ m.subjectRight) :
    regionKey last = runKey cur := by
  cases cur with
  | nil => exact absurd hacc (by simp [accumOK])
  | cons h t =>
    obtain ⟨e1, e2, e3, e4, e5⟩ := hacc
    have hlr : last.subjectLeft ≤ last.subjectRight := by
      rw [e4, e5]
      calc h.subjectLeft ≤ h.subjectRight := hcanon h (by simp)
      _ ≤ maxRightOf (h :: t) := le_maxRightOf _ h (by simp)
    unfold regionKey canonKey
    rw [if_neg (by simp only [regionRecord]; omega)]
    unfold runKey regionRecord
    simp [BlastRecordKey.mk.injEq, e1, e2, e3, e4, e5]

theorem mergeLoop_runs (near : Int) :
    ∀ (rest : List BlastRecordKey) (last : BlastRecordKey)
      (cur : List BlastRecordKey),
    accumOK last cur →
    (∀ m ∈ cur ++ rest, m.subjectLeft ≤ m.subjectRight) →
    ∃ runs0 lastRun l,
      runsLoop near last cur rest = runs0 ++ [lastRun] ∧
      mergeLoop near last (cur.length : Int) rest =
        (runs0.map (fun run => (runKey run, (run.length : Int))), l,
          (lastRun.length : Int)) ∧
      accumOK l lastRun := by
  intro rest
  induction rest with
  | nil =>
    intro last cur hacc hcanon
    exact ⟨[], cur, last, by simp [runsLoop], by simp [mergeLoop], hacc⟩
  | cons r rest ih =>
    intro last cur hacc hcanon
    have hne := accumOK_ne_nil hacc
    obtain ⟨h0, hs0, rfl⟩ : ∃ h0 hs0, cur = h0 :: hs0 := by
      cases cur with
      | nil => exact absurd rfl hne
      | cons a l => exact ⟨a, l, rfl⟩
    obtain ⟨ha1, ha2, ha3, ha4, ha5⟩ : last.subjectAccVer = h0.subjectAccVer ∧
        last.queryAccVer = h0.queryAccVer ∧ last.strand = h0.strand ∧
        last.subjectLeft = h0.subjectLeft ∧
        last.subjectRight = maxRightOf (h0 :: hs0) := hacc
    by_cases hm : mergeable near r last
    · obtain ⟨e1, e2, e3, e4⟩ := extendRight_fields last r
      have hacc' : accumOK (extendRight last r) ((h0 :: hs0) ++ [r]) := by
        refine ⟨e1.trans ha1, e2.trans ha2, e3.trans ha3, e4.trans ha4, ?_⟩
        rw [extendRight_right, ha5,
          maxRightOf_append (h0 :: hs0) r (by simp)]
      have hcanon' : ∀ m ∈ ((h0 :: hs0) ++ [r]) ++ rest,
          m.subjectLeft ≤ m.subjectRight := by
        intro m hmem
        apply hcanon
        simp only [List.append_assoc, List.cons_append, List.nil_append] at hmem ⊢
        exact hmem
      obtain ⟨runs0, lastRun, l, hr1, hr2, hr3⟩ :=
        ih (extendRight last r) ((h0 :: hs0) ++ [r]) hacc' hcanon'
      refine ⟨runs0, lastRun, l, ?_, ?_, hr3⟩
      · rw [← hr1]
        simp only [runsLoop]
        rw [if_pos hm]
      · simp only [mergeLoop]
        rw [if_pos hm]
        have hlen : ((h0 :: hs0).length : Int) + 1 =
            (((h0 :: hs0) ++ [r]).length : Int) := by simp
        rw [hlen]
        exact hr2
    · have hacc' : accumOK r [r] := ⟨rfl, rfl, rfl, rfl, rfl⟩
      have hcanon' : ∀ m ∈ ([r] : List BlastRecordKey) ++ rest,
          m.subjectLeft ≤ m.subjectRight := by
        intro m hmem
        apply hcanon
        simp only [List.cons_append, List.nil_append] at hmem
        rcases List.mem_cons.mp hmem with rfl | hmem
        · simp
        · simp [hmem]
      obtain ⟨runs0, lastRun, l, hr1, hr2, hr3⟩ := ih r [r] hacc' hcanon'
      refine ⟨(h0 :: hs0) :: runs0, lastRun, l, ?_, ?_, hr3⟩
      · simp only [runsLoop]
        rw [if_neg hm, hr1]
        rfl
      · simp only [mergeLoop]
        rw [if_neg hm]
        have hone : (1 : Int) = ((([r] : List BlastRecordKey).length : Int)) := by
          simp
        rw [hone, hr2]
        have hrk : regionKey last = runKey (h0 :: hs0) :=
          regionKey_eq_runKey last (h0 :: hs0) ⟨ha1, ha2, ha3, ha4, ha5⟩
            (fun m hmem => hcanon m (by
              rcases List.mem_cons.mp hmem with rfl | hmm
              · simp
              · simp [hmm]))
        simp [hrk]

theorem sameGroup3_symm {a b : BlastRecordKey} (h : sameGroup3 a b) :
    sameGroup3 b a :=
  ⟨h.1.symm, h.2.1.symm, h.2.2.symm⟩

theorem sameGroup3_trans {a b c : BlastRecordKey} (h1 : sameGroup3 a b)
    (h2 : sameGroup3 b c) : sameGroup3 a c :=
  ⟨h1.1.trans h2.1, h1.2.1.trans h2.2.1, h1.2.2.trans h2.2.2⟩

theorem merge_eq_runs (near : Int) (hnear : 0 ≤ near)
    (hits : List BlastRecordKey) (hne : hits ≠ [])
    (hcanon : ∀ m ∈ hits, m.subjectLeft ≤ m.subjectRight) :
    merge near hits = MergeResult.stores
      ((mergeRuns near hits).map (fun run => (runKey run, (run.length : Int)))) := by
  obtain ⟨k, rest, rfl⟩ : ∃ k rest, hits = k :: rest := by
    cases hits with
    | nil => exact absurd rfl hne
    | cons a l => exact ⟨a, l, rfl⟩
  have hacc0 : accumOK (zeroQ k) [k] := ⟨rfl, rfl, rfl, rfl, rfl⟩
  have hcanon' : ∀ m ∈ ([k] : List BlastRecordKey) ++ rest,
      m.subjectLeft ≤ m.subjectRight := by
    intro m hm
    exact hcanon m (by simpa using hm)
  obtain ⟨runs0, lastRun, l, hr1, hr2, hr3⟩ :=
    mergeLoop_runs near rest (zeroQ k) [k] hacc0 hcanon'
  simp only [List.length_singleton, Nat.cast_one] at hr2
  obtain ⟨hj, ⟨ext, rem, hshape⟩, hnonempty, hgrps, hwithin, hchain⟩ :=
    runsLoop_spec near rest (zeroQ k) [k] hacc0
      (by
        intro m hm
        rw [List.mem_singleton.mp hm]
        exact ⟨rfl, rfl, rfl⟩)
      (by
        intro pre m post heq hpre
        exfalso
        have hlen := congrArg List.length heq
        cases pre with
        | nil => exact hpre rfl
        | cons p ps => simp at hlen)
  have hmr : mergeRuns near (k :: rest) = runsLoop near (zeroQ k) [k] rest := rfl
  have hflat : (runs0 ++ [lastRun]).flatten = k :: rest := by
    rw [← hr1, hj]; rfl
  have hlastcanon : ∀ m ∈ lastRun, m.subjectLeft ≤ m.subjectRight := by
    intro m hm
    apply hcanon
    rw [← hflat]
    exact List.mem_flatten.mpr ⟨lastRun, by simp, hm⟩
  have hrkl : regionKey l = runKey lastRun :=
    regionKey_eq_runKey l lastRun hr3 hlastcanon
  simp only [merge]
  rw [hr2]
  rw [hmr, hr1]
  cases runs0 with
  | nil =>
    simp [hrkl]
  | cons r0 rs0 =>
    obtain ⟨init, s, his⟩ : ∃ init s, r0 :: rs0 = init ++ [s] := by
      rcases (r0 :: rs0).eq_nil_or_concat with h | ⟨init, s, hc⟩
      · exact absurd h (by simp)
      · exact ⟨init, s, by rw [hc]; exact List.concat_eq_append _ _⟩
    rw [his] at hr1 hflat ⊢
    have hsne : s ≠ [] := hnonempty s (by rw [hr1]; simp)
    have hlne : lastRun ≠ [] := hnonempty lastRun (by rw [hr1]; simp)
    obtain ⟨sh, st, rfl⟩ : ∃ sh st, s = sh :: st := by
      cases s with
      | nil => exact absurd rfl hsne
      | cons a t => exact ⟨a, t, rfl⟩
    obtain ⟨lh, lt, rfl⟩ : ∃ lh lt, lastRun = lh :: lt := by
      cases lastRun with
      | nil => exact absurd rfl hlne
      | cons a t => exact ⟨a, t, rfl⟩
    obtain ⟨hl1, hl2, hl3, hl4, hl5⟩ : l.subjectAccVer = lh.subjectAccVer ∧
        l.queryAccVer = lh.queryAccVer ∧ l.strand = lh.strand ∧
        l.subjectLeft = lh.subjectLeft ∧
        l.subjectRight = maxRightOf (lh :: lt) := hr3
    have hbound : runBoundary near (sh :: st) (lh :: lt) := by
      rw [hr1] at hchain
      have hcomp := (List.chain'_append.mp hchain).2.2
      apply hcomp (sh :: st) _ (lh :: lt) (by simp)
      rw [List.getLast?_concat]
      rfl
    have hshmem : sh ∈ k :: rest := by
      rw [← hflat]
      exact List.mem_flatten.mpr ⟨sh :: st, by simp, by simp⟩
    have hshc : sh.subjectLeft ≤ sh.subjectRight := hcanon sh hshmem
    have hshr : sh.subjectRight ≤ maxRightOf (sh :: st) :=
      le_maxRightOf _ sh (by simp)
    have hne_ls : ¬ l = runKey (sh :: st) := by
      intro heq
      have e1 : l.subjectAccVer = sh.subjectAccVer := by rw [heq]; rfl
      have e2 : l.queryAccVer = sh.queryAccVer := by rw [heq]; rfl
      have e3 : l.strand = sh.strand := by rw [heq]; rfl
      have e4 : l.subjectLeft = sh.subjectLeft := by rw [heq]; rfl
      apply hbound
      constructor
      · exact ⟨hl3.symm.trans e3, hl2.symm.trans e2, hl1.symm.trans e1⟩
      · simp only [List.headI_cons]
        omega
    rw [List.map_append]
    simp only [List.map_cons, List.map_nil, List.getLast?_concat]
    rw [if_neg hne_ls]
    simp [hrkl, List.map_append]

/-- Strict group-by-query comparator order between unmarshalled keys: the
relation in which the forward store keeps its records. -/
def cmpLtG (a b : BlastRecordKey) : Prop := cmpGroupKeys a b = some (-1)

theorem pairwise_run_of_flatten {R : BlastRecordKey → BlastRecordKey → Prop}
    (rs : List (List BlastRecordKey)) (hp : rs.flatten.Pairwise R)
    (run : List BlastRecordKey) (hrun : run ∈ rs) : run.Pairwise R := by
  obtain ⟨s, t, rfl⟩ := List.append_of_mem hrun
  rw [List.flatten_append, List.flatten_cons] at hp
  have h1 := (List.pairwise_append.mp hp).2.1
  exact (List.pairwise_append.mp h1).1

theorem sep_first (near : Int) (_hnear : 0 ≤ near)
    (run0 : List BlastRecordKey) (rest : List (List BlastRecordKey))
    (hne : ∀ run ∈ run0 :: rest, run ≠ [])
    (hchain : List.Chain' (runBoundary near) (run0 :: rest))
    (hsort : (run0 :: rest).flatten.Pairwise cmpLtG) :
    ∀ run' ∈ rest, sameGroup3 run'.headI run0.headI →
      maxRightOf run0 + near < run'.headI.subjectLeft := by
  intro run' hrun' hg
  cases rest with
  | nil => exact absurd hrun' (by simp)
  | cons run1 rest' =>
    have hne1 : run1 ≠ [] := hne run1 (by simp)
    have hne' : run' ≠ [] := hne run' (by simp [hrun'])
    have hb01 : runBoundary near run0 run1 := (List.chain'_cons.mp hchain).1
    rcases List.mem_cons.mp hrun' with rfl | hrun''
    · by_contra hcon
      exact hb01 ⟨hg, by omega⟩
    · -- the run lies beyond the first tail run; bound through its head
      rw [List.flatten_cons] at hsort
      have hcross := (List.pairwise_append.mp hsort).2.2
      have hrest := (List.pairwise_append.mp hsort).2.1
      rw [List.flatten_cons] at hrest
      have hcross1 := (List.pairwise_append.mp hrest).2.2
      have h0mem : run0.headI ∈ run0 := headI_mem' run0 (hne run0 (by simp))
      have h1mem : run1.headI ∈ run1 := headI_mem' run1 hne1
      have hmemf : run'.headI ∈ rest'.flatten :=
        List.mem_flatten.mpr ⟨run', hrun'', headI_mem' run' hne'⟩
      have hlt01 : cmpLtG run0.headI run1.headI :=
        hcross run0.headI h0mem run1.headI (List.mem_append.mpr (Or.inl h1mem))
      have hlt1 : cmpLtG run1.headI run'.headI :=
        hcross1 run1.headI h1mem run'.headI hmemf
      have hg01 : sameGroup3 run0.headI run1.headI :=
        gLe_squeeze _ _ _ (cmpLt_gLe _ _ hlt01) (cmpLt_gLe _ _ hlt1)
          (sameGroup3_symm hg)
      have hg1 : sameGroup3 run1.headI run'.headI :=
        sameGroup3_trans (sameGroup3_symm hg01) (sameGroup3_symm hg)
      have hmono : run1.headI.subjectLeft ≤ run'.headI.subjectLeft :=
        cmpLt_left_le _ _ hlt1 hg1
      have hb : maxRightOf run0 + near < run1.headI.subjectLeft := by
        by_contra hcon
        exact hb01 ⟨sameGroup3_symm hg01, by omega⟩
      omega

theorem runs_unique_cover (near : Int) (hnear : 0 ≤ near) :
    ∀ rs : List (List BlastRecordKey),
    (∀ run ∈ rs, run ≠ []) →
    (∀ run ∈ rs, ∀ m ∈ run, sameGroup3 m run.headI) →
    List.Chain' (runBoundary near) rs →
    rs.flatten.Pairwise cmpLtG →
    (∀ m ∈ rs.flatten, m.subjectLeft ≤ m.subjectRight) →
    ∀ run ∈ rs, ∀ H ∈ run, ∀ run' ∈ rs,
      sameGroup3 (runKey run') H →
      (runKey run').subjectLeft ≤ H.subjectLeft →
      H.subjectRight ≤ (runKey run').subjectRight →
      runKey run' = runKey run := by
  intro rs
  induction rs with
  | nil =>
    intro _ _ _ _ _ run hrun
    exact absurd hrun (by simp)
  | cons run0 rest ih =>
    intro hne hgrp hchain hsort hcanon run hrun H hH run' hrun' hg hl hr
    have hne0 : run0 ≠ [] := hne run0 (by simp)
    obtain ⟨h0, t0, rfl⟩ : ∃ a t, run0 = a :: t := by
      cases run0 with
      | nil => exact absurd rfl hne0
      | cons a t => exact ⟨a, t, rfl⟩
    rcases List.mem_cons.mp hrun with rfl | hruntail
    · rcases List.mem_cons.mp hrun' with rfl | hruntail'
      · rfl
      · exfalso
        have hne' : run' ≠ [] := hne run' (by simp [hruntail'])
        obtain ⟨hh, tt, rfl⟩ : ∃ a t, run' = a :: t := by
          cases run' with
          | nil => exact absurd rfl hne'
          | cons a t => exact ⟨a, t, rfl⟩
        have hgH : sameGroup3 H (h0 :: t0).headI :=
          hgrp (h0 :: t0) (by simp) H hH
        have hgh : sameGroup3 (hh :: tt).headI (h0 :: t0).headI :=
          sameGroup3_trans (show sameGroup3 hh H from hg) hgH
        have hsep := sep_first near hnear (h0 :: t0) rest hne hchain hsort
          (hh :: tt) hruntail' hgh
        have hcH : H.subjectLeft ≤ H.subjectRight :=
          hcanon H (List.mem_flatten.mpr ⟨h0 :: t0, by simp, hH⟩)
        have hHr : H.subjectRight ≤ maxRightOf (h0 :: t0) :=
          le_maxRightOf _ H hH
        have hl2 : hh.subjectLeft ≤ H.subjectLeft := hl
        simp only [List.headI_cons] at hsep
        omega
    · rcases List.mem_cons.mp hrun' with rfl | hruntail'
      · exfalso
        have hneR : run ≠ [] := hne run (by simp [hruntail])
        obtain ⟨hr0, tr, rfl⟩ : ∃ a t, run = a :: t := by
          cases run with
          | nil => exact absurd rfl hneR
          | cons a t => exact ⟨a, t, rfl⟩
        have hgH : sameGroup3 H (hr0 :: tr).headI :=
          hgrp (hr0 :: tr) (by simp [hruntail]) H hH
        have hghr : sameGroup3 (hr0 :: tr).headI (h0 :: t0).headI :=
          sameGroup3_trans (sameGroup3_symm hgH)
            (sameGroup3_symm (show sameGroup3 h0 H from hg))
        have hsep := sep_first near hnear (h0 :: t0) rest hne hchain hsort
          (hr0 :: tr) hruntail hghr
        have hpair : (hr0 :: tr).Pairwise cmpLtG := by
          apply pairwise_run_of_flatten ((h0 :: t0) :: rest) hsort
          simp [hruntail]
        have hHl : hr0.subjectLeft ≤ H.subjectLeft := by
          rcases List.mem_cons.mp hH with rfl | hHt
          · exact le_refl _
          · exact cmpLt_left_le _ _ (List.rel_of_pairwise_cons hpair hHt)
              (sameGroup3_symm hgH)
        have hcH : H.subjectLeft ≤ H.subjectRight := by
          apply hcanon H
          exact List.mem_flatten.mpr ⟨hr0 :: tr, by simp [hruntail], hH⟩
        have hr2 : H.subjectRight ≤ maxRightOf (h0 :: t0) := hr
        simp only [List.headI_cons] at hsep
        omega
      · apply ih (fun q hq => hne q (by simp [hq]))
          (fun q hq => hgrp q (by simp [hq]))
          ((List.chain'_cons'.mp hchain).2)
          (by
            rw [List.flatten_cons] at hsort
            exact (List.pairwise_append.mp hsort).2.1)
          (fun m hm => hcanon m (by
            rw [List.flatten_cons]
            exact List.mem_append.mpr (Or.inr hm)))
          run hruntail H hH run' hruntail' hg hl hr

instance (a b : BlastRecordKey) : Decidable (cmpLtG a b) := by
  unfold cmpLtG; infer_instance

/-- C4: on a sorted forward store with canonical keys, `merge` succeeds and
the regions store it produces is the per-run region list: every forward hit
H is covered by exactly one region R sharing subject accession, query
accession and strand, with `R.subjectLeft ≤ H.subjectLeft` and
`H.subjectRight ≤ R.subjectRight`; a record joins the running region
exactly when it shares query accession, subject accession and strand with
it and its subject left minus the running region's subject right is at
most `NEAR = 30` (the within-run condition below), and adjacent regions
always fail that test (the `runBoundary` chain). -/
theorem c4_merge_regions (hits : List BlastRecordKey)
    (hne : hits ≠ [])
    (hsort : hits.Pairwise cmpLtG)
    (hcanon : ∀ k ∈ hits, k.subjectLeft ≤ k.subjectRight) :
    merge 30 hits = MergeResult.stores
      ((mergeRuns 30 hits).map (fun run => (runKey run, (run.length : Int)))) ∧
    (mergeRuns 30 hits).flatten = hits ∧
    (∀ run ∈ mergeRuns 30 hits, run ≠ []) ∧
    (∀ H ∈ hits, ∃ R, (R ∈ (mergeRuns 30 hits).map runKey ∧ sameGroup3 R H ∧
        R.subjectLeft ≤ H.subjectLeft ∧ H.subjectRight ≤ R.subjectRight) ∧
      (∀ S ∈ (mergeRuns 30 hits).map runKey, sameGroup3 S H →
        S.subjectLeft ≤ H.subjectLeft → H.subjectRight ≤ S.subjectRight →
        S = R)) ∧
    (∀ run ∈ mergeRuns 30 hits, ∀ pre m post, run = pre ++ m :: post →
        pre ≠ [] → sameGroup3 m run.headI ∧
          m.subjectLeft - maxRightOf pre ≤ 30) ∧
    List.Chain' (runBoundary 30) (mergeRuns 30 hits) := by
  obtain ⟨k, rest, rfl⟩ : ∃ k rest, hits = k :: rest := by
    cases hits with
    | nil => exact absurd rfl hne
    | cons a l => exact ⟨a, l, rfl⟩
  have hacc0 : accumOK (zeroQ k) [k] := ⟨rfl, rfl, rfl, rfl, rfl⟩
  obtain ⟨hj, ⟨ext, rem, hshape⟩, hnonempty, hgrps, hwithin, hchain⟩ :=
    runsLoop_spec 30 rest (zeroQ k) [k] hacc0
      (by
        intro m hm
        rw [List.mem_singleton.mp hm]
        exact ⟨rfl, rfl, rfl⟩)
      (by
        intro pre m post heq hpre
        exfalso
        have hlen := congrArg List.length heq
        cases pre with
        | nil => exact hpre rfl
        | cons p ps => simp at hlen)
  have hmr : mergeRuns 30 (k :: rest) = runsLoop 30 (zeroQ k) [k] rest := rfl
  have hflat : (mergeRuns 30 (k :: rest)).flatten = k :: rest := by
    rw [hmr, hj]; rfl
  have hsortflat : (mergeRuns 30 (k :: rest)).flatten.Pairwise cmpLtG := by
    rw [hflat]; exact hsort
  have hcanonflat : ∀ m ∈ (mergeRuns 30 (k :: rest)).flatten,
      m.subjectLeft ≤ m.subjectRight := by
    rw [hflat]; exact hcanon
  rw [← hmr] at hnonempty hgrps hwithin hchain
  refine ⟨merge_eq_runs 30 (by norm_num) (k :: rest) hne hcanon, hflat,
    hnonempty, ?_, hwithin, hchain⟩
  intro H hH
  obtain ⟨run, hrunmem, hHrun⟩ := List.mem_flatten.mp (by rw [hflat]; exact hH)
  have hrne : run ≠ [] := hnonempty run hrunmem
  obtain ⟨rh, rt, rfl⟩ : ∃ a t, run = a :: t := by
    cases run with
    | nil => exact absurd rfl hrne
    | cons a t => exact ⟨a, t, rfl⟩
  have hgH : sameGroup3 H (rh :: rt).headI := hgrps (rh :: rt) hrunmem H hHrun
  refine ⟨runKey (rh :: rt), ⟨List.mem_map_of_mem runKey hrunmem, ?_, ?_, ?_⟩, ?_⟩
  · exact sameGroup3_symm hgH
  · have hpair : (rh :: rt).Pairwise cmpLtG :=
      pairwise_run_of_flatten _ hsortflat _ hrunmem
    rcases List.mem_cons.mp hHrun with rfl | hHt
    · exact le_refl _
    · exact cmpLt_left_le rh H (List.rel_of_pairwise_cons hpair hHt)
        (sameGroup3_symm hgH)
  · exact le_maxRightOf _ H hHrun
  · intro S hS hg hl hr
    obtain ⟨run', hrun'mem, rfl⟩ := List.mem_map.mp hS
    exact runs_unique_cover 30 (by norm_num) (mergeRuns 30 (k :: rest))
      hnonempty hgrps hchain hsortflat hcanonflat (rh :: rt) hrunmem H hHrun
      run' hrun'mem hg hl hr

/-- Concrete sorted canonical forward store for the C4 witness: two
proximal hits (gap 10 ≤ 30) and one distant hit (gap 300 > 30). -/
def wHitsC4 : List BlastRecordKey :=
  [⟨[115], 100, 150, [113], 0, 50, 100, 1⟩,
   ⟨[115], 160, 200, [113], 0, 40, 90, 1⟩,
   ⟨[115], 500, 600, [113], 0, 40, 80, 1⟩]

theorem c4_merge_regions_witness :
    wHitsC4 ≠ [] ∧ wHitsC4.Pairwise cmpLtG ∧
    (∀ k ∈ wHitsC4, k.subjectLeft ≤ k.subjectRight) ∧
    merge 30 wHitsC4 = MergeResult.stores
      ((mergeRuns 30 wHitsC4).map (fun run => (runKey run, (run.length : Int)))) ∧
    (mergeRuns 30 wHitsC4).flatten = wHitsC4 :=
  ⟨by decide, by decide, by decide,
    (c4_merge_regions wHitsC4 (by decide) (by decide) (by decide)).1,
    (c4_merge_regions wHitsC4 (by decide) (by decide) (by decide)).2.1⟩

/-- Modelled from the spec: the reverse-store key record consumed by
`cullContained` in `src/unnamed/part_002`.  The revision of the
`internal/store` package matching that file is not under `src/`; per §3 of
the spec each reciprocal record carries a "sum-score" tiebreaker in
addition to the key fields of `store.BlastRecordKey`, and `cullContained`
reads it from the unmarshalled key (`inner.SumScore`).  Both score fields
are IEEE-754 doubles carried as bit patterns. -/
structure RevKey where
  subjectAccVer : List Nat
  subjectLeft : Int
  subjectRight : Int
  queryAccVer : List Nat
  queryStart : Int
  queryEnd : Int
  bitScore : Nat
  sumScore : Nat
  strand : Int
  deriving Repr, DecidableEq

instance : Inhabited RevKey := ⟨⟨[], 0, 0, [], 0, 0, 0, 0, 0⟩⟩

/-- The `store.BlastRecordKey` view of a reverse-store record: the fields
compared by `store.BySubjectPosition`. -/
def projKey (r : RevKey) : BlastRecordKey :=
  ⟨r.subjectAccVer, r.subjectLeft, r.subjectRight, r.queryAccVer,
    r.queryStart, r.queryEnd, r.bitScore, r.strand⟩

/-- The deletion test of `cullContained` (`src/unnamed/part_002` line 526):
`inner.BitScore < outer.BitScore || (inner.BitScore == outer.BitScore &&
inner.SumScore < outer.SumScore)`, with Go `float64` comparisons. -/
def dominatedLex (inner outer : RevKey) : Prop :=
  fLt inner.bitScore outer.bitScore = true ∨
  (fEq inner.bitScore outer.bitScore = true ∧
    fLt inner.sumScore outer.sumScore = true)

instance (inner outer : RevKey) : Decidable (dominatedLex inner outer) := by
  unfold dominatedLex; infer_instance

/-- One candidate walk of `cullContained` (`src/unnamed/part_002` lines
503-533) for a fixed outer record, over the store entries after the outer
key in `BySubjectPosition` order: stop at a strand or subject-accession
change, stop once `inner.SubjectLeft ≥ outer.SubjectRight`, skip records
extending beyond `outer.SubjectRight`, and delete dominated records. -/
def cullStep (outer : RevKey) : List RevKey → List RevKey
  | [] => []
  | c :: rest =>
      if c.strand ≠ outer.strand ∨ c.subjectAccVer ≠ outer.subjectAccVer then
        c :: rest
      else if c.subjectLeft ≥ outer.subjectRight then c :: rest
      else if c.subjectRight > outer.subjectRight then c :: cullStep outer rest
      else if dominatedLex c outer then cullStep outer rest
      else c :: cullStep outer rest

theorem cullStep_sublist (outer : RevKey) :
    ∀ cs : List RevKey, (cullStep outer cs).Sublist cs := by
  intro cs
  induction cs with
  | nil => simp [cullStep]
  | cons c rest ih =>
    unfold cullStep
    split
    · exact List.Sublist.refl _
    · split
      · exact List.Sublist.refl _
      · split
        · exact List.Sublist.cons₂ c ih
        · split
          · exact List.Sublist.cons c ih
          · exact List.Sublist.cons₂ c ih

/-- `cullContained` from `src/unnamed/part_002` (lines 467-540): the outer
iterator visits each remaining record in order; after each visit the
candidate walk deletes the dominated contained records that follow it.
Deleted keys are gone from the store, so subsequent iterator positions
skip them. -/
def cullContained : List RevKey → List RevKey
  | [] => []
  | o :: rest => o :: cullContained (cullStep o rest)
termination_by l => l.length
decreasing_by
  simp only [List.length_cons]
  exact Nat.lt_succ_of_le (cullStep_sublist _ _).length_le

theorem cullContained_sublist :
    ∀ hits : List RevKey, (cullContained hits).Sublist hits := by
  intro hits
  induction hits using cullContained.induct with
  | case1 => simp [cullContained]
  | case2 o rest ih =>
    rw [cullContained]
    exact List.Sublist.cons₂ o (ih.trans (cullStep_sublist o rest))

theorem fGt_irrefl (x : Nat) : fGt x x = false := by
  simp [fGt]

theorem fLt_irrefl (x : Nat) : fLt x x = false := by
  simp [fLt]

theorem cmpSubjKeys_irrefl (a : BlastRecordKey) : cmpSubjKeys a a = none := by
  simp [cmpSubjKeys, strLt_irrefl, fGt_irrefl, fLt_irrefl]

/-- Strand and subject accession agree — the grouping fields of the
by-subject-position order and of the culler's walk. -/
def sameGroup2 (a b : BlastRecordKey) : Prop :=
  a.strand = b.strand ∧ a.subjectAccVer = b.subjectAccVer

/-- `a`'s (strand, subject accession) pair does not come after `b`'s in the
by-subject-position order. -/
def gLe2 (a b : BlastRecordKey) : Prop :=
  b.strand < a.strand ∨ (a.strand = b.strand ∧
    (strLt a.subjectAccVer b.subjectAccVer = true ∨
      a.subjectAccVer = b.subjectAccVer))

theorem cmpSubj_gLe2 (a b : BlastRecordKey)
    (h : cmpSubjKeys a b = some (-1)) : gLe2 a b := by
  unfold cmpSubjKeys at h
  unfold gLe2
  by_cases h1 : a.strand > b.strand
  · exact Or.inl h1
  rw [if_neg h1] at h
  by_cases h2 : a.strand < b.strand
  · rw [if_pos h2] at h; exact absurd h (by simp)
  rw [if_neg h2] at h
  have hst : a.strand = b.strand := by omega
  by_cases h3 : strLt a.subjectAccVer b.subjectAccVer = true
  · exact Or.inr ⟨hst, Or.inl h3⟩
  rw [if_neg h3] at h
  by_cases h4 : strLt b.subjectAccVer a.subjectAccVer = true
  · rw [if_pos h4] at h; exact absurd h (by simp)
  exact Or.inr ⟨hst, Or.inr (strLt_conn _ _ (by simpa using h3)
    (by simpa using h4))⟩

theorem gLe2_squeeze (a b c : BlastRecordKey) (h1 : gLe2 a b) (h2 : gLe2 b c)
    (h3 : sameGroup2 a c) : sameGroup2 a b := by
  obtain ⟨e1, e2⟩ := h3
  unfold gLe2 at h1 h2
  rcases h1 with h1 | ⟨f1, h1⟩
  · rcases h2 with h2 | ⟨f2, _⟩ <;> (exfalso; omega)
  rcases h2 with h2 | ⟨f2, h2⟩
  · exfalso; omega
  refine ⟨f1, ?_⟩
  rcases h1 with h1 | g1
  · exfalso
    rcases h2 with h2 | g2
    · have := strLt_trans _ _ _ h1 h2
      rw [e2, strLt_irrefl] at this
      exact absurd this (by simp)
    · rw [g2, ← e2, strLt_irrefl] at h1
      exact absurd h1 (by simp)
  · exact g1

theorem cmpSubj_left_le (a b : BlastRecordKey)
    (h : cmpSubjKeys a b = some (-1)) (hg : sameGroup2 a b) :
    a.subjectLeft ≤ b.subjectLeft := by
  obtain ⟨e1, e2⟩ := hg
  by_cases h6 : a.subjectLeft > b.subjectLeft
  · exfalso
    unfold cmpSubjKeys at h
    rw [if_neg (by omega : ¬a.strand > b.strand),
      if_neg (by omega : ¬a.strand < b.strand),
      if_neg (by simp [e2, strLt_irrefl]),
      if_neg (by simp [e2, strLt_irrefl]),
      if_neg (by omega : ¬a.subjectLeft < b.subjectLeft),
      if_pos h6] at h
    exact absurd h (by simp)
  · omega

theorem cmpSubj_right_ge (a b : BlastRecordKey)
    (h : cmpSubjKeys a b = some (-1)) (hg : sameGroup2 a b)
    (hl : a.subjectLeft = b.subjectLeft) :
    b.subjectRight ≤ a.subjectRight := by
  obtain ⟨e1, e2⟩ := hg
  by_cases h8 : a.subjectRight < b.subjectRight
  · exfalso
    unfold cmpSubjKeys at h
    rw [if_neg (by omega : ¬a.strand > b.strand),
      if_neg (by omega : ¬a.strand < b.strand),
      if_neg (by simp [e2, strLt_irrefl]),
      if_neg (by simp [e2, strLt_irrefl]),
      if_neg (by omega : ¬a.subjectLeft < b.subjectLeft),
      if_neg (by omega : ¬a.subjectLeft > b.subjectLeft),
      if_neg (by omega : ¬a.subjectRight > b.subjectRight),
      if_pos h8] at h
    exact absurd h (by simp)
  · omega

/-- The reverse store's sort relation: strictly earlier in
`store.BySubjectPosition` order on the key fields. -/
def bspR (a b : RevKey) : Prop := cmpSubjKeys (projKey a) (projKey b) = some (-1)

instance (a b : RevKey) : Decidable (bspR a b) := by
  unfold bspR; infer_instance

/-- Strand and subject accession agree, on reverse-store records. -/
def sameGroup2R (a b : RevKey) : Prop :=
  a.strand = b.strand ∧ a.subjectAccVer = b.subjectAccVer

instance (a b : RevKey) : Decidable (sameGroup2R a b) := by
  unfold sameGroup2R; infer_instance

theorem bspR_irrefl (a : RevKey) : ¬ bspR a a := by
  unfold bspR
  rw [cmpSubjKeys_irrefl]
  simp

/-- Retention: the candidate walk never deletes a record that is not
strictly dominated by the outer record. -/
theorem cullStep_keeps (outer : RevKey) :
    ∀ cs : List RevKey, ∀ c ∈ cs, ¬ dominatedLex c outer →
      c ∈ cullStep outer cs := by
  intro cs
  induction cs with
  | nil => intro c hc; exact absurd hc (by simp)
  | cons d rest ih =>
    intro c hc hnd
    unfold cullStep
    by_cases h1 : d.strand ≠ outer.strand ∨ d.subjectAccVer ≠ outer.subjectAccVer
    · rw [if_pos h1]; exact hc
    rw [if_neg h1]
    by_cases h2 : d.subjectLeft ≥ outer.subjectRight
    · rw [if_pos h2]; exact hc
    rw [if_neg h2]
    by_cases h3 : d.subjectRight > outer.subjectRight
    · rw [if_pos h3]
      rcases List.mem_cons.mp hc with rfl | hcr
      · exact List.mem_cons_self _ _
      · exact List.mem_cons_of_mem d (ih c hcr hnd)
    rw [if_neg h3]
    by_cases h4 : dominatedLex d outer
    · rw [if_pos h4]
      rcases List.mem_cons.mp hc with rfl | hcr
      · exact absurd h4 hnd
      · exact ih c hcr hnd
    · rw [if_neg h4]
      rcases List.mem_cons.mp hc with rfl | hcr
      · exact List.mem_cons_self _ _
      · exact List.mem_cons_of_mem d (ih c hcr hnd)

/-- Deletion: a non-degenerate candidate on the same strand and subject as
the outer record, contained in its span and strictly dominated by it, is
removed by the candidate walk (the walk reaches it before any break). -/
theorem cullStep_deletes (outer : RevKey) :
    ∀ cs : List RevKey,
    List.Pairwise bspR (outer :: cs) →
    ∀ c ∈ cs, c.subjectLeft < c.subjectRight →
      sameGroup2R c outer →
      outer.subjectLeft ≤ c.subjectLeft →
      c.subjectRight ≤ outer.subjectRight →
      dominatedLex c outer →
      c ∉ cullStep outer cs := by
  intro cs
  induction cs with
  | nil => intro _ c hc; exact absurd hc (by simp)
  | cons d rest ih =>
    intro hsort c hc hdeg hgrp hcl hcr hdom
    have hod : bspR outer d := (List.rel_of_pairwise_cons hsort) (by simp)
    have hdrest : List.Pairwise bspR (d :: rest) :=
      (List.pairwise_cons.mp hsort).2
    have horest : List.Pairwise bspR (outer :: rest) := by
      have hsub : (outer :: rest).Sublist (outer :: d :: rest) := by
        apply List.Sublist.cons₂
        exact List.sublist_cons_self d rest
      exact hsort.sublist hsub
    rcases List.mem_cons.mp hc with rfl | hcrest
    · -- the walk is standing on the candidate itself
      unfold cullStep
      rw [if_neg (by
          obtain ⟨g1, g2⟩ := hgrp
          simp [g1, g2]),
        if_neg (by omega), if_neg (by omega), if_pos hdom]
      intro hmem
      have hcnotin : c ∉ rest := by
        intro hin
        exact bspR_irrefl c ((List.rel_of_pairwise_cons hdrest) hin)
      exact hcnotin ((cullStep_sublist outer rest).subset hmem)
    · -- an intermediate record; show the walk does not break here
      have hdc : bspR d c := (List.rel_of_pairwise_cons hdrest) hcrest
      have hgdo : sameGroup2 (projKey outer) (projKey d) :=
        gLe2_squeeze _ _ _ (cmpSubj_gLe2 _ _ hod) (cmpSubj_gLe2 _ _ hdc)
          ⟨hgrp.1.symm, hgrp.2.symm⟩
      have hgdc : sameGroup2 (projKey d) (projKey c) :=
        ⟨hgdo.1.symm.trans hgrp.1.symm, hgdo.2.symm.trans hgrp.2.symm⟩
      have hdl : d.subjectLeft ≤ c.subjectLeft := cmpSubj_left_le _ _ hdc hgdc
      unfold cullStep
      rw [if_neg (by
          obtain ⟨g1, g2⟩ := hgdo
          simp only [projKey] at g1 g2
          simp [g1, g2]),
        if_neg (by omega)]
      by_cases h3 : d.subjectRight > outer.subjectRight
      · rw [if_pos h3]
        intro hmem
        rcases List.mem_cons.mp hmem with rfl | hmem'
        · exact bspR_irrefl c hdc
        · exact ih horest c hcrest hdeg hgrp hcl hcr hdom hmem'
      rw [if_neg h3]
      by_cases h4 : dominatedLex d outer
      · rw [if_pos h4]
        exact ih horest c hcrest hdeg hgrp hcl hcr hdom
      · rw [if_neg h4]
        intro hmem
        rcases List.mem_cons.mp hmem with rfl | hmem'
        · exact bspR_irrefl c hdc
        · exact ih horest c hcrest hdeg hgrp hcl hcr hdom hmem'

/-- C6 (amended): during one candidate walk of `cullContained`, a candidate
on the same subject accession and strand as the outer record whose
non-empty subject span is contained in the outer span is deleted if and
only if it is strictly dominated lexicographically — `bitscore` less, or
`bitscore` equal and `sum-score` less; equal-score equal-span candidates
are retained.  The non-emptiness proviso `subjectLeft < subjectRight` is
forced by `c6_cull_contained_counterexample`. -/
theorem c6_cull_delete_iff_amended (outer : RevKey) (cs : List RevKey)
    (hsort : List.Pairwise bspR (outer :: cs))
    (c : RevKey) (hc : c ∈ cs) (hdeg : c.subjectLeft < c.subjectRight)
    (hgrp : sameGroup2R c outer)
    (hcl : outer.subjectLeft ≤ c.subjectLeft)
    (hcr : c.subjectRight ≤ outer.subjectRight) :
    c ∉ cullStep outer cs ↔ dominatedLex c outer := by
  constructor
  · intro hnot
    by_contra hnd
    exact hnot (cullStep_keeps outer cs c hc hnd)
  · intro hdom
    exact cullStep_deletes outer cs hsort c hc hdeg hgrp hcl hcr hdom

/-- Outer record for the C6 counterexample. -/
def oC6 : RevKey := ⟨[115], 0, 5, [113], 0, 5, 2000, 0, 1⟩

/-- Degenerate candidate for the C6 counterexample: span `[5,5]` sits at
the outer record's right edge, is contained in `[0,5]` and strictly
dominated, yet the walk breaks on `inner.SubjectLeft >= outer.SubjectRight`
before deleting it. -/
def cC6 : RevKey := ⟨[115], 5, 5, [113], 0, 2, 1000, 0, 1⟩

/-- C6 counterexample: a strictly dominated candidate on the same subject
and strand, with span contained in the outer record's span, that
`cullStep` retains — so the claimed "deleted if and only if dominated"
fails as stated. -/
theorem c6_cull_contained_counterexample :
    sameGroup2R cC6 oC6 ∧
    oC6.subjectLeft ≤ cC6.subjectLeft ∧ cC6.subjectRight ≤ oC6.subjectRight ∧
    dominatedLex cC6 oC6 ∧
    List.Pairwise bspR [oC6, cC6] ∧
    cC6 ∈ cullStep oC6 [cC6] := by
  refine ⟨by decide, by decide, by decide, by decide, by decide, by decide⟩

/-- Outer and candidate records for the C6 witness: candidate `[2,8]` is
contained in `[0,10]` and strictly dominated on bitscore. -/
def oW6 : RevKey := ⟨[115], 0, 10, [113], 0, 5, 2000, 0, 1⟩

def cW6 : RevKey := ⟨[115], 2, 8, [113], 0, 2, 1000, 0, 1⟩

theorem c6_cull_delete_iff_amended_witness :
    (cW6 ∉ cullStep oW6 [cW6] ↔ dominatedLex cW6 oW6) ∧
    cW6 ∉ cullStep oW6 [cW6] := by
  have h := c6_cull_delete_iff_amended oW6 [cW6] (by decide) cW6 (by decide)
    (by decide) (by decide) (by decide) (by decide)
  exact ⟨h, h.mpr (by decide)⟩

theorem cull_sound_aux :
    ∀ hits : List RevKey, List.Pairwise bspR hits →
    (∀ k ∈ hits, k.subjectLeft < k.subjectRight) →
    ∀ A ∈ cullContained hits, ∀ B ∈ cullContained hits,
      sameGroup2R A B →
      B.subjectLeft ≤ A.subjectLeft → A.subjectRight ≤ B.subjectRight →
      (A.subjectLeft ≠ B.subjectLeft ∨ A.subjectRight ≠ B.subjectRight) →
      ¬ dominatedLex A B := by
  intro hits
  induction hits using cullContained.induct with
  | case1 =>
    intro _ _ A hA
    rw [cullContained] at hA
    exact absurd hA (by simp)
  | case2 o rest ih =>
    intro hsort hdeg A hA B hB hg hbl hbr hne hdom
    rw [cullContained] at hA hB
    have hsort_tail : List.Pairwise bspR rest := (List.pairwise_cons.mp hsort).2
    have hsort_cs : List.Pairwise bspR (cullStep o rest) :=
      hsort_tail.sublist (cullStep_sublist o rest)
    have hout_cs : (cullContained (cullStep o rest)).Sublist (cullStep o rest) :=
      cullContained_sublist _
    have hcs_rest : (cullStep o rest).Sublist rest := cullStep_sublist o rest
    rcases List.mem_cons.mp hA with rfl | hA'
    · rcases List.mem_cons.mp hB with rfl | hB'
      · rcases hne with hne | hne <;> exact hne rfl
      · -- the container B sits after the outer record A = o: impossible
        have hBrest : B ∈ rest := hcs_rest.subset (hout_cs.subset hB')
        have hrel : bspR A B := (List.rel_of_pairwise_cons hsort) hBrest
        have hgp : sameGroup2 (projKey A) (projKey B) := ⟨hg.1, hg.2⟩
        have hle : A.subjectLeft ≤ B.subjectLeft :=
          cmpSubj_left_le _ _ hrel hgp
        have hleq : A.subjectLeft = B.subjectLeft := by omega
        have hge : B.subjectRight ≤ A.subjectRight :=
          cmpSubj_right_ge _ _ hrel hgp hleq
        rcases hne with hne | hne
        · exact hne hleq
        · exact hne (by omega)
    · rcases List.mem_cons.mp hB with rfl | hB'
      · -- A is contained in the outer record B = o and dominated:
        -- the candidate walk would have deleted it
        have hAcs : A ∈ cullStep B rest := hout_cs.subset hA'
        have hArest : A ∈ rest := hcs_rest.subset hAcs
        exact cullStep_deletes B rest hsort A hArest
          (hdeg A (by simp [hArest])) ⟨hg.1, hg.2⟩ hbl hbr hdom hAcs
      · exact ih hsort_cs
          (fun k hk => hdeg k (by simp [hcs_rest.subset hk]))
          A hA' B hB' hg hbl hbr hne hdom

/-- Outer record for the C7 counterexample. -/
def oC7 : RevKey := ⟨[116], 10, 20, [113], 0, 9, 2000, 0, 1⟩

/-- Degenerate record for the C7 counterexample. -/
def cC7 : RevKey := ⟨[116], 20, 20, [113], 0, 3, 1000, 0, 1⟩

/-- C7 counterexample: after `cullContained`, the reverse store still holds
a pair (A, B) on the same subject and strand with A's (degenerate) span
strictly inside B's span and A strictly dominated — the claimed invariant
fails as stated on spans that are allowed to be empty. -/
theorem c7_cull_soundness_counterexample :
    List.Pairwise bspR [oC7, cC7] ∧
    cullContained [oC7, cC7] = [oC7, cC7] ∧
    sameGroup2R cC7 oC7 ∧
    oC7.subjectLeft ≤ cC7.subjectLeft ∧ cC7.subjectRight ≤ oC7.subjectRight ∧
    (cC7.subjectLeft ≠ oC7.subjectLeft ∨ cC7.subjectRight ≠ oC7.subjectRight) ∧
    dominatedLex cC7 oC7 := by
  have hstep : cullStep oC7 [cC7] = [cC7] := by decide
  have hstep2 : cullStep cC7 ([] : List RevKey) = [] := rfl
  have hcc : cullContained [oC7, cC7] = [oC7, cC7] := by
    rw [cullContained, hstep, cullContained, hstep2, cullContained]
  exact ⟨by decide, hcc, by decide, by decide, by decide, by decide, by decide⟩

/-- C7 (amended): for a reverse store sorted by-subject-position whose
records all have non-empty subject spans, after `cullContained` no
remaining record A is strictly contained in a remaining record B on the
same subject and strand while being strictly dominated by it.  The
non-emptiness proviso is forced by `c7_cull_soundness_counterexample`. -/
theorem c7_cull_soundness_amended (hits : List RevKey)
    (hsort : List.Pairwise bspR hits)
    (hdeg : ∀ k ∈ hits, k.subjectLeft < k.subjectRight) :
    ∀ A ∈ cullContained hits, ∀ B ∈ cullContained hits,
      sameGroup2R A B →
      B.subjectLeft ≤ A.subjectLeft → A.subjectRight ≤ B.subjectRight →
      (A.subjectLeft ≠ B.subjectLeft ∨ A.subjectRight ≠ B.subjectRight) →
      ¬ dominatedLex A B :=
  cull_sound_aux hits hsort hdeg

/-- Records for the C7 witness: a contained pair with equal scores, which
culling retains and which therefore must not be dominated. -/
def oW7 : RevKey := ⟨[115], 0, 10, [113], 0, 5, 2000, 0, 1⟩

def cW7 : RevKey := ⟨[115], 2, 8, [113], 0, 2, 2000, 0, 1⟩

theorem c7_cull_soundness_amended_witness : ¬ dominatedLex cW7 oW7 := by
  have hstep : cullStep oW7 [cW7] = [cW7] := by decide
  have hstep2 : cullStep cW7 ([] : List RevKey) = [] := rfl
  have hcc : cullContained [oW7, cW7] = [oW7, cW7] := by
    rw [cullContained, hstep, cullContained, hstep2, cullContained]
  exact c7_cull_soundness_amended [oW7, cW7] (by decide) (by decide)
    cW7 (by rw [hcc]; decide) oW7 (by rw [hcc]; decide)
    (by decide) (by decide) (by decide) (by decide)

/-- The `fragment` type from `src/cmd/ins/fragment.go`: parent sequence id
and the fragment's coordinate window (`end` is rendered `stop`). -/
structure Fragment where
  parent : List Nat
  start : Int
  stop : Int
  deriving Repr, DecidableEq

/-- Go map lookup `frags[k]`: the zero value `fragment{}` when the key is
absent, exactly as in Go. -/
def lookupFrag (frags : List (List Nat × Fragment)) (k : List Nat) : Fragment :=
  match frags.find? (fun p => p.1 == k) with
  | some p => p.2
  | none => ⟨[], 0, 0⟩

/-- `remapCoords` from `src/cmd/ins/fragment.go` (lines 70-78): rewrite
each hit's subject accession to the fragment's parent and shift its subject
coordinates by the fragment's start offset. -/
def remapCoords (hits : List Record) (frags : List (List Nat × Fragment)) :
    List Record :=
  hits.map fun r =>
    let iv := lookupFrag frags r.subjectAccVer
    { r with subjectAccVer := iv.parent,
             subjectStart := r.subjectStart + iv.start,
             subjectEnd := r.subjectEnd + iv.start }

/-- A hit whose subject accession `"unk"` is not in the fragment table. -/
def recC8 : Record :=
  { queryAccVer := [113], subjectAccVer := [117, 110, 107], pctIdentity := 0,
    alignmentLength := 50, mismatches := 0, gapOpens := 0,
    queryStart := 0, queryEnd := 50, subjectStart := 100, subjectEnd := 200,
    eValue := 0, bitScore := 1000, strand := 1, iteration := 0, uid := 0 }

/-- A fragment table that does not contain `recC8`'s accession. -/
def fragsC8 : List (List Nat × Fragment) :=
  [([102, 95, 49], ⟨[112], 50, 150⟩)]

/-- C8: `remapCoords` does not treat a hit with an unknown subject
accession as fatal; the Go map lookup silently yields the zero `fragment`,
so the hit's accession is rewritten to the empty string and its
coordinates are shifted by zero, and the run continues.  This contradicts
the claim (and the spec's stated intent) that such hits are fatal. -/
theorem c8_remap_unknown_not_fatal :
    remapCoords [recC8] fragsC8 = [{ recC8 with subjectAccVer := [] }] ∧
    ∀ r ∈ remapCoords [recC8] fragsC8,
      r.subjectAccVer = [] ∧ r.subjectStart = recC8.subjectStart ∧
      r.subjectEnd = recC8.subjectEnd := by
  refine ⟨by decide, by decide⟩

/-- Modelled from the spec: one HSP of the BLAST XML output tree decoded by
`runBlastXML`.  The `blast.Output`/`Iteration`/`Hit`/`Hsp` declarations
live in a `blast` package revision that is not under `src/`; only the
fields read by the filter in `src/cmd/ins/blast.go` are modelled. -/
structure Hsp where
  queryFrom : Int
  queryTo : Int
  hitFrom : Int
  hitTo : Int
  deriving Repr, DecidableEq

/-- Modelled from the spec: one BLAST hit, a list of HSPs. -/
structure BHit where
  hsps : List Hsp
  deriving Repr, DecidableEq

/-- Modelled from the spec: one BLAST iteration with its optional query id
and hits. -/
structure Iteration where
  queryId : Option (List Nat)
  hits : List BHit
  deriving Repr, DecidableEq

/-- Modelled from the spec: a decoded BLAST XML document. -/
structure Output where
  iterations : List Iteration
  deriving Repr, DecidableEq

/-- The HSP orientation computed by `runBlastXML`
(`src/cmd/ins/blast.go` lines 234-242): -1 exactly when the coordinate
pair is inverted, +1 otherwise (including the degenerate equal case). -/
def hspStrand (p : Hsp) : Int :=
  (if p.queryTo < p.queryFrom then -1 else 1) *
  (if p.hitTo < p.hitFrom then -1 else 1)

/-- The iteration guard of `runBlastXML` (line 227): an iteration is kept
when it has hits and its query id is present and equals the region's
query accession. -/
def keepIteration (queryAcc : List Nat) (it : Iteration) : Bool :=
  !it.hits.isEmpty &&
    match it.queryId with
    | some q => q == queryAcc
    | none => false

/-- The filtering performed by `runBlastXML` (`src/cmd/ins/blast.go` lines
225-255) on one decoded output, for a region with query accession
`queryAcc` and expected strand `strand`: drop non-matching iterations and,
within each kept iteration, keep only the HSPs whose orientation equals
the expected strand. -/
def runBlastXMLFilter (queryAcc : List Nat) (strand : Int) (o : Output) :
    Output :=
  ⟨(o.iterations.filter (keepIteration queryAcc)).map fun it =>
    ⟨it.queryId, it.hits.map fun h =>
      ⟨h.hsps.filter fun p => hspStrand p == strand⟩⟩⟩

/-- The degenerate HSP for the C9 counterexample: `queryFrom = queryTo`. -/
def hspC9 : Hsp := ⟨5, 5, 1, 10⟩

/-- A decoded output holding only the degenerate HSP. -/
def outC9 : Output := ⟨[⟨some [113], [⟨[hspC9]⟩]⟩]⟩

/-- C9 counterexample: an HSP with `QueryTo = QueryFrom` survives the
strand filter for expected strand +1, although
`sign(QueryTo-QueryFrom) * sign(HitTo-HitFrom) = 0 ≠ +1` — so the claim,
read with the mathematical sign of the difference, is false in both of its
directions on degenerate HSPs. -/
theorem c9_strand_filter_counterexample :
    (∃ it ∈ (runBlastXMLFilter [113] 1 outC9).iterations, ∃ h ∈ it.hits,
      hspC9 ∈ h.hsps) ∧
    Int.sign (hspC9.queryTo - hspC9.queryFrom) *
      Int.sign (hspC9.hitTo - hspC9.hitFrom) ≠ 1 := by
  refine ⟨?_, by decide⟩
  refine ⟨⟨some [113], [⟨[hspC9]⟩]⟩, by decide, ⟨[hspC9]⟩, by decide, by decide⟩

/-- C9 (amended): with orientation read as the code computes it — -1 for
an inverted coordinate pair and +1 otherwise, so that a zero difference
counts as +1 — every HSP in the filtered results has orientation equal to
the expected strand, and every HSP of the decoded output whose orientation
differs from the expected strand is absent from the results. -/
theorem c9_strand_filter_amended (queryAcc : List Nat) (strand : Int)
    (o : Output) :
    (∀ it ∈ (runBlastXMLFilter queryAcc strand o).iterations,
      ∀ h ∈ it.hits, ∀ p ∈ h.hsps, hspStrand p = strand) ∧
    (∀ p : Hsp, hspStrand p ≠ strand →
      ∀ it ∈ (runBlastXMLFilter queryAcc strand o).iterations,
        ∀ h ∈ it.hits, p ∉ h.hsps) := by
  have key : ∀ it ∈ (runBlastXMLFilter queryAcc strand o).iterations,
      ∀ h ∈ it.hits, ∀ p ∈ h.hsps, hspStrand p = strand := by
    intro it hit h hh p hp
    unfold runBlastXMLFilter at hit
    simp only [List.mem_map] at hit
    obtain ⟨it0, _, rfl⟩ := hit
    simp only [List.mem_map] at hh
    obtain ⟨h0, _, rfl⟩ := hh
    simp only [List.mem_filter, beq_iff_eq] at hp
    exact hp.2
  exact ⟨key, fun p hps it hit h hh hp => hps (key it hit h hh p hp)⟩

/-- The minus-orientation HSP for the C9 witness. -/
def hspW9 : Hsp := ⟨1, 10, 10, 1⟩

/-- A decoded output holding a plus HSP and the minus HSP. -/
def outW9 : Output := ⟨[⟨some [113], [⟨[⟨1, 10, 1, 10⟩, hspW9]⟩]⟩]⟩

theorem c9_strand_filter_amended_witness :
    hspStrand hspW9 ≠ 1 ∧
    (∀ it ∈ (runBlastXMLFilter [113] 1 outW9).iterations,
      ∀ h ∈ it.hits, hspW9 ∉ h.hsps) :=
  ⟨by decide,
    (c9_strand_filter_amended [113] 1 outW9).2 hspW9 (by decide)⟩

/-- ASCII decimal digit test. -/
def isDigitB (b : Nat) : Bool := 48 ≤ b && b ≤ 57

/-- Accumulate decimal digits; `none` on a non-digit byte. -/
def parseDigitsGo (acc : Nat) : List Nat → Option Nat
  | [] => some acc
  | d :: rest => if isDigitB d then parseDigitsGo (acc * 10 + (d - 48)) rest
                 else none

/-- Parse a non-empty all-digit byte string. -/
def parseDigits : List Nat → Option Nat
  | [] => none
  | l => parseDigitsGo 0 l

/-- `strconv.Atoi` on a byte string: optional sign, decimal digits, and the
64-bit range check; `none` models the error return. -/
def goAtoi (s : List Nat) : Option Int :=
  let p : Bool × List Nat :=
    match s with
    | 45 :: rest => (true, rest)
    | 43 :: rest => (false, rest)
    | _ => (false, s)
  match parseDigits p.2 with
  | none => none
  | some n =>
      let v : Int := if p.1 then -(n : Int) else (n : Int)
      if v < -9223372036854775808 ∨ 9223372036854775808 ≤ v then none
      else some v

/-- Count leading digits and return the remainder. -/
def spanDigits : List Nat → Nat × List Nat
  | [] => (0, [])
  | b :: r =>
      if isDigitB b then
        let p := spanDigits r
        (p.1 + 1, p.2)
      else (0, b :: r)

/-- Decimal `float64` syntax accepted by this model of
`strconv.ParseFloat`: optional sign, a mantissa with digits (a bare `.` is
rejected), and an optional signed exponent.  Go additionally accepts
hexadecimal floats, `inf`/`nan` spellings and digit-group underscores,
which BLAST never emits and which are not modelled. -/
def floatSyntaxOK (s : List Nat) : Bool :=
  let body : List Nat :=
    match s with
    | 45 :: rest => rest
    | 43 :: rest => rest
    | _ => s
  let p1 := spanDigits body
  let q : Nat × List Nat :=
    match p1.2 with
    | 46 :: r => let p2 := spanDigits r; (p2.1, p2.2)
    | _ => (0, p1.2)
  let mantOK : Bool :=
    decide (0 < p1.1) ||
      (match p1.2 with | 46 :: _ => decide (0 < q.1) | _ => false)
  let expOK : Bool :=
    match q.2 with
    | [] => true
    | e :: r =>
        if e == 101 || e == 69 then
          let body2 : List Nat :=
            match r with
            | 45 :: rest => rest
            | 43 :: rest => rest
            | _ => r
          let p3 := spanDigits body2
          decide (0 < p3.1) && p3.2.isEmpty
        else false
  mantOK && expOK

/-- Injective packing of a byte string, used as the opaque carrier for
parsed `float64` values: the claims under verification never inspect the
numeric value of a parsed float, only whether parsing succeeded. -/
def packBytes (s : List Nat) : Nat :=
  s.foldl (fun a b => a * 256 + b % 256) 1

/-- Model of `strconv.ParseFloat` for the tabular parser: syntax check
plus the opaque value carrier. -/
def parseFloatLite (s : List Nat) : Option Nat :=
  if floatSyntaxOK s then some (packBytes s) else none

/-- ASCII white space, as trimmed by `bytes.TrimSpace` on ASCII input. -/
def isSpaceB (b : Nat) : Bool := b == 32 || (9 ≤ b && b ≤ 13)

/-- `bytes.TrimSpace` (ASCII): drop leading and trailing white space. -/
def trimSpace (l : List Nat) : List Nat :=
  ((l.dropWhile isSpaceB).reverse.dropWhile isSpaceB).reverse

/-- `bytes.Split(line, []byte("\t"))`. -/
def splitTabGo (cur : List Nat) : List Nat → List (List Nat)
  | [] => [cur.reverse]
  | b :: r => if b == 9 then cur.reverse :: splitTabGo [] r
              else splitTabGo (b :: cur) r

def splitTab (l : List Nat) : List (List Nat) := splitTabGo [] l

/-- `bytes.HasPrefix(line, []byte("#"))`. -/
def isComment : List Nat → Bool
  | 35 :: _ => true
  | _ => false

/-- Field parsing of one 12-column tabular line
(`src/blast/blast.go` lines 185-239): trim every field, parse the numeric
columns, convert query and subject starts to zero-based, and derive the
strand from the (converted) subject coordinates. -/
def parseRecord12 (iteration : Int)
    (f0 f1 f2 f3 f4 f5 f6 f7 f8 f9 f10 f11 : List Nat) : Option Record := do
  let pct ← parseFloatLite (trimSpace f2)
  let alen ← goAtoi (trimSpace f3)
  let mism ← goAtoi (trimSpace f4)
  let gap ← goAtoi (trimSpace f5)
  let qs ← goAtoi (trimSpace f6)
  let qe ← goAtoi (trimSpace f7)
  let ss ← goAtoi (trimSpace f8)
  let se ← goAtoi (trimSpace f9)
  let ev ← parseFloatLite (trimSpace f10)
  let bs ← parseFloatLite (trimSpace f11)
  some { queryAccVer := trimSpace f0, subjectAccVer := trimSpace f1,
         pctIdentity := pct, alignmentLength := alen, mismatches := mism,
         gapOpens := gap, queryStart := qs - 1, queryEnd := qe,
         subjectStart := ss - 1, subjectEnd := se, eValue := ev,
         bitScore := bs, strand := if se < ss - 1 then -1 else 1,
         iteration := iteration, uid := 0 }

/-- Dispatch on the field count. -/
def parseRecordFields (iteration : Int) : List (List Nat) → Option Record
  | [f0, f1, f2, f3, f4, f5, f6, f7, f8, f9, f10, f11] =>
      parseRecord12 iteration f0 f1 f2 f3 f4 f5 f6 f7 f8 f9 f10 f11
  | _ => none

/-- Result of `blast.ParseTabular`: the records accumulated so far with a
success or error outcome, or the `panic("inverted query")`. -/
inductive PTResult where
  | ok (recs : List Record)
  | error (recs : List Record)
  | panicked
  deriving Repr, DecidableEq

/-- The scan loop of `blast.ParseTabular` (`src/blast/blast.go` lines
151-244) over the input lines: skip comment lines, fail on a wrong column
count or an unparsable field (returning the records so far), panic on an
inverted query coordinate pair, and otherwise accumulate the record. -/
def parseTabularGo (iteration : Int) (acc : List Record) :
    List (List Nat) → PTResult
  | [] => PTResult.ok acc.reverse
  | line :: rest =>
      if isComment line then parseTabularGo iteration acc rest
      else
        let f := splitTab line
        if f.length = 12 then
          match parseRecordFields iteration f with
          | none => PTResult.error acc.reverse
          | some r =>
              if r.queryEnd < r.queryStart then PTResult.panicked
              else parseTabularGo iteration (r :: acc) rest
        else PTResult.error acc.reverse

/-- `blast.ParseTabular` over an input already scanned into lines. -/
def ParseTabular (lines : List (List Nat)) (iteration : Int) : PTResult :=
  parseTabularGo iteration [] lines

/-- The records carried by a non-panicking result. -/
def ptRecords : PTResult → List Record
  | PTResult.ok recs => recs
  | PTResult.error recs => recs
  | PTResult.panicked => []

theorem parseRecord12_strand (iteration : Int)
    (f0 f1 f2 f3 f4 f5 f6 f7 f8 f9 f10 f11 : List Nat) (r : Record)
    (h : parseRecord12 iteration f0 f1 f2 f3 f4 f5 f6 f7 f8 f9 f10 f11 =
      some r) :
    (r.strand = -1 ↔ r.subjectEnd < r.subjectStart) ∧
    (r.strand = 1 ↔ ¬ r.subjectEnd < r.subjectStart) := by
  unfold parseRecord12 at h
  simp only [Option.bind_eq_bind, Option.bind_eq_some, Option.some.injEq] at h
  obtain ⟨pct, _, alen, _, mism, _, gap, _, qs, _, qe, _, ss, _, se, _, ev, _,
    bs, _, rfl⟩ := h
  by_cases hss : se < ss - 1
  · simp [hss]
  · simp [hss]

theorem parseRecordFields_strand (iteration : Int) (f : List (List Nat))
    (r : Record) (h : parseRecordFields iteration f = some r) :
    (r.strand = -1 ↔ r.subjectEnd < r.subjectStart) ∧
    (r.strand = 1 ↔ ¬ r.subjectEnd < r.subjectStart) := by
  unfold parseRecordFields at h
  split at h
  · exact parseRecord12_strand _ _ _ _ _ _ _ _ _ _ _ _ _ r h
  · exact absurd h (by simp)

theorem parseTabularGo_records (iteration : Int) :
    ∀ (lines : List (List Nat)) (acc : List Record),
    (∀ r ∈ acc, r.queryStart ≤ r.queryEnd ∧
      (r.strand = -1 ↔ r.subjectEnd < r.subjectStart) ∧
      (r.strand = 1 ↔ ¬ r.subjectEnd < r.subjectStart)) →
    ∀ r ∈ ptRecords (parseTabularGo iteration acc lines),
      r.queryStart ≤ r.queryEnd ∧
      (r.strand = -1 ↔ r.subjectEnd < r.subjectStart) ∧
      (r.strand = 1 ↔ ¬ r.subjectEnd < r.subjectStart) := by
  intro lines
  induction lines with
  | nil =>
    intro acc hacc r hr
    simp only [parseTabularGo, ptRecords, List.mem_reverse] at hr
    exact hacc r hr
  | cons line rest ih =>
    intro acc hacc r hr
    unfold parseTabularGo at hr
    by_cases hcom : isComment line
    · rw [if_pos hcom] at hr
      exact ih acc hacc r hr
    rw [if_neg hcom] at hr
    by_cases hlen : (splitTab line).length = 12
    · rw [if_pos hlen] at hr
      cases hp : parseRecordFields iteration (splitTab line) with
      | none =>
        rw [hp] at hr
        simp only [ptRecords, List.mem_reverse] at hr
        exact hacc r hr
      | some r0 =>
        rw [hp] at hr
        dsimp only at hr
        by_cases hq : r0.queryEnd < r0.queryStart
        · rw [if_pos hq] at hr
          simp [ptRecords] at hr
        · rw [if_neg hq] at hr
          refine ih (r0 :: acc) ?_ r hr
          intro x hx
          rcases List.mem_cons.mp hx with rfl | hx
          · exact ⟨by omega, parseRecordFields_strand iteration _ x hp⟩
          · exact hacc x hx
    · rw [if_neg hlen] at hr
      simp only [ptRecords, List.mem_reverse] at hr
      exact hacc r hr

/-- C10: `ParseTabular` panics — rather than returning an error — on a
well-formed non-comment tabular line whose query coordinates are inverted
after the one-based start is decremented; consequently every record it
returns (on success or on error) satisfies `QueryStart ≤ QueryEnd`, and
its `Strand` is -1 exactly when `SubjectEnd < SubjectStart` (on the
stored, zero-based fields) and +1 otherwise. -/
theorem c10_parse_tabular_panics (iteration : Int) :
    (∀ line r, isComment line = false →
      parseRecordFields iteration (splitTab line) = some r →
      r.queryEnd < r.queryStart →
      ParseTabular [line] iteration = PTResult.panicked) ∧
    (∀ lines r, r ∈ ptRecords (ParseTabular lines iteration) →
      r.queryStart ≤ r.queryEnd ∧
      (r.strand = -1 ↔ r.subjectEnd < r.subjectStart) ∧
      (r.strand = 1 ↔ ¬ r.subjectEnd < r.subjectStart)) := by
  constructor
  · intro line r hcom hp hq
    have hlen : (splitTab line).length = 12 := by
      unfold parseRecordFields at hp
      by_contra hne
      revert hp
      split
      · rename_i heq
        rw [heq] at hne
        simp at hne
      · simp
    unfold ParseTabular parseTabularGo
    rw [if_neg (by simp [hcom]), if_pos hlen, hp]
    dsimp only
    rw [if_pos hq]
  · intro lines r hr
    exact parseTabularGo_records iteration lines [] (by simp) r hr

/-- A well-formed 12-column line with inverted query coordinates
(`qstart = 9`, `qend = 3`):
`q s 90 10 0 0 9 3 100 150 1 50` joined with tabs. -/
def wLineC10 : List Nat :=
  [113, 9, 115, 9, 57, 48, 9, 49, 48, 9, 48, 9, 48, 9, 57, 9, 51, 9,
   49, 48, 48, 9, 49, 53, 48, 9, 49, 9, 53, 48]

/-- The record that `parseRecord12` assembles from `wLineC10` before the
panic check fires. -/
def wRecC10 : Record :=
  { queryAccVer := [113], subjectAccVer := [115],
    pctIdentity := packBytes [57, 48], alignmentLength := 10,
    mismatches := 0, gapOpens := 0, queryStart := 8, queryEnd := 3,
    subjectStart := 99, subjectEnd := 150, eValue := packBytes [49],
    bitScore := packBytes [53, 48], strand := 1, iteration := 0, uid := 0 }

theorem c10_parse_tabular_panics_witness :
    ParseTabular [wLineC10] 0 = PTResult.panicked :=
  (c10_parse_tabular_panics 0).1 wLineC10 wRecC10 (by decide) (by decide)
    (by decide)

end Ins
